import Mathlib

/-
Verification of the matching-engine core of the Empirical repository
(src/source/tools/matchbin_utils.h): the metric family, the metric
modifiers, and the Ranked/Roulette/Dynamic selectors.

Modelling conventions:
* C++ `double` values are modelled as exact rationals (ℚ); the +infinity
  sentinels produced by the negative-numerator ratio convention are
  modelled by `WithTop ℚ`.
* `emp::BitSet<W>` values are natural numbers below `2 ^ W`; the BitSet
  operations used by the metrics (XOR, popcount, modular subtraction,
  unsigned comparison, left rotation, MaxDouble) are not part of the
  sampled sources, so they are modelled from the spec (see the individual
  doc comments).
* C++ `int` is a 32-bit two's-complement integer: arithmetic wraps
  modulo 2^32 (`wrap32`); `size_t` arithmetic wraps modulo 2^64.
* `std::unordered_map<size_t, double>` is an association list
  (`ScoreMap`); `at` is a lookup returning `Option` (none = the
  std::out_of_range exception), `operator[]` inserts a default `0` entry
  for a missing key.
* fallible computations return `Option`; `none` stands for a thrown
  exception or for an execution that leaves the contract of a modelled
  component (an out-of-bounds vector access, an IndexMap draw outside
  the weight range).
-/

/-! ### Bit-level helpers -/

/-- Popcount of a natural number, with explicit fuel (the bit width);
models `BitSet<W>::CountOnes` for values below `2 ^ fuel`. -/
def countOnesFuel : Nat → Nat → Nat
  | 0, _ => 0
  | fuel + 1, n => if n = 0 then 0 else n % 2 + countOnesFuel fuel (n / 2)

/-- Modelled from the spec: BitSet subtraction `a - b` wraps modulo `2 ^ W`
(spec section 9, wrap-around arithmetic over integer-valued bit vectors).
Faithful for `a, b < 2 ^ W`. -/
def bsSub (W a b : Nat) : Nat := (2 ^ W + a - b) % 2 ^ W

/-- Modelled from the spec: `BitSet<W>::MaxDouble()`.  The spec fixes the
AsymNoWrap divisor `MaxDouble() + 1` to `2 ^ W + 1` and the AsymWrap and
SymNoWrap divisor `MaxDouble()` to `2 ^ W`, so `MaxDouble() = 2 ^ W`. -/
def MaxDouble (W : Nat) : ℚ := 2 ^ W

/-- Modelled from the spec: cyclic left rotation of a W-bit vector by `k`
(`BitSet::ROTL_SELF`, spec: rot_left).  The low `W - k` bits move up by
`k` places and the high `k` bits wrap to the bottom. -/
def rotl (W k a : Nat) : Nat :=
  (a % 2 ^ (W - k % W)) * 2 ^ (k % W) + a / 2 ^ (W - k % W)

/-- Wrap an integer into 32-bit two's-complement range (C++ `int`
overflow behaviour of the hardware the code targets). -/
def wrap32 (z : Int) : Int := (z + 2 ^ 31) % 2 ^ 32 - 2 ^ 31

/-- Model of `std::abs` on 32-bit int: undefined at INT_MIN, where the
common two's-complement behaviour returns INT_MIN itself. -/
def intAbs (z : Int) : Int := if z = -(2 ^ 31) then -(2 ^ 31) else |z|

/-! ### The metric family (matchbin_utils.h) -/

/-- HammingMetric (lines 47-62): `(double)(a ^ b).CountOnes() / Width`. -/
def HammingMetric (W a b : Nat) : ℚ := (countOnesFuel W (a ^^^ b) : ℚ) / W

/-- AbsDiffMetric (lines 65-80): `(double)std::abs(a - b) / INT_MAX`,
with `a - b` computed in 32-bit int arithmetic (no widening). -/
def AbsDiffMetric (a b : Int) : ℚ := (intAbs (wrap32 (a - b)) : ℚ) / (2 ^ 31 - 1)

/-- NextUpMetric (lines 85-99): `((Max + 1) + b - a) % (Max + 1)` in
size_t arithmetic, `% (Max + 1)` again, divided by `Max`. -/
def NextUpMetric (Max a b : Nat) : ℚ :=
  let m := (Max + 1) % 2 ^ 64
  let difference := (((m + b) % 2 ^ 64 + (2 ^ 64 - a % 2 ^ 64)) % 2 ^ 64) % m
  ((difference % m : Nat) : ℚ) / (Max : ℚ)

/-- AsymmetricWrapMetric (lines 103-119): `(b - a).GetDouble() / MaxDouble()`. -/
def AsymmetricWrapMetric (W a b : Nat) : ℚ := (bsSub W b a : ℚ) / MaxDouble W

/-- AsymmetricNoWrapMetric (lines 122-139): distance
`(b >= a ? (b - a).GetDouble() : max_dist) / max_dist` with
`max_dist = MaxDouble() + 1`. -/
def AsymmetricNoWrapMetric (W a b : Nat) : ℚ :=
  (if a ≤ b then (bsSub W b a : ℚ) else MaxDouble W + 1) / (MaxDouble W + 1)

/-- SymmetricWrapMetric (lines 145-164):
`std::min(a - b, b - a).GetDouble() / ((MaxDouble() + 1) / 2)`; the
`std::min` compares the two BitSets as unsigned integers. -/
def SymmetricWrapMetric (W a b : Nat) : ℚ :=
  ((min (bsSub W a b) (bsSub W b a) : Nat) : ℚ) / ((MaxDouble W + 1) / 2)

/-- SymmetricNoWrapMetric (lines 169-187):
`(a > b ? a - b : b - a).GetDouble() / MaxDouble()`. -/
def SymmetricNoWrapMetric (W a b : Nat) : ℚ :=
  ((if b < a then bsSub W a b else bsSub W b a : Nat) : ℚ) / MaxDouble W

/-- SlideMod (lines 223-246): starting from `best = 1.0`, take
`best = min(metric(dup, b), best)` over the `W` successive left
rotations `dup` of the query `a`. -/
def SlideMod (W : Nat) (f : Nat → Nat → ℚ) (a b : Nat) : ℚ :=
  ((List.range W).map (fun i => f (rotl W i a) b)).foldl (fun best v => min v best) 1

instance minFoldRightComm : RightCommutative (fun (best v : ℚ) => min v best) :=
  ⟨fun b a₁ a₂ => min_left_comm a₂ a₁ b⟩

/-! ### Score tables: std::unordered_map<size_t, double> -/

/-- ScoreMap: association-list model of the score table
`std::unordered_map<size_t, double>`. -/
abbrev ScoreMap : Type := List (Nat × ℚ)

/-- Lookup of a key in the table (first matching entry). -/
def mapFind : ScoreMap → Nat → Option ℚ
  | [], _ => none
  | (k, v) :: t, u => if k = u then some v else mapFind t u

/-- Model of `unordered_map::at`: `none` is the thrown std::out_of_range. -/
def mapAt (m : ScoreMap) (u : Nat) : Option ℚ := mapFind m u

/-- Model of `unordered_map::operator[]`: returns the stored value and the
table, inserting a default `0` entry when the key is missing. -/
def mapIdx (m : ScoreMap) (u : Nat) : ℚ × ScoreMap :=
  match mapFind m u with
  | some v => (v, m)
  | none => (0, m ++ [(u, 0)])

/-- Effective score of a uid: the stored value, or the default `0` that
`operator[]` inserts for a missing key. -/
def effScore (m : ScoreMap) (u : Nat) : ℚ := (mapFind m u).getD 0

/-- Threshold encoded by a `std::ratio<num, den>` template argument:
a negative numerator means +infinity (matchbin_utils.h lines 310-315). -/
def ratToThresh (num den : Int) : WithTop ℚ :=
  if num < 0 then ⊤ else (((num : ℚ) / (den : ℚ) : ℚ) : WithTop ℚ)

/-! ### RankedSelector (matchbin_utils.h lines 299-354) -/

/-- Inner scan of the bounded selection sort (lines 321-329): find the
first index attaining the minimal score among candidates that pass the
threshold.  Returns the elements before the chosen one, the chosen uid
with its score, and the elements after it; inner `none` means no
candidate passes (minIndex stays -1).  Outer `none`: `scores.at` threw.
The scan looks up every element of the list, as the C++ loop does. -/
def findMinSplit (m : ScoreMap) (thresh : WithTop ℚ) :
    List Nat → Option (Option (List Nat × Nat × ℚ × List Nat))
  | [] => some none
  | u :: l => do
      let s ← mapAt m u
      let r ← findMinSplit m thresh l
      match r with
      | none =>
          if (s : WithTop ℚ) ≤ thresh then pure (some ([], u, s, l)) else pure none
      | some (P, c, sc, S) =>
          if (s : WithTop ℚ) ≤ thresh ∧ s ≤ sc then pure (some ([], u, s, l))
          else pure (some (u :: P, c, sc, S))

/-- The bounded selection sort (lines 318-332), with the remaining swap
budget as fuel.  The swap at position `back` moves the chosen element `c`
to the front; the displaced element lands at the chosen position, so the
unprocessed remainder `P ++ c :: S` becomes `P.rotate 1 ++ S`. -/
def selLoop (m : ScoreMap) (thresh : WithTop ℚ) :
    Nat → List Nat → Option (List Nat × List Nat)
  | 0, rest => some ([], rest)
  | fuel + 1, rest => do
      let r ← findMinSplit m thresh rest
      match r with
      | none => some ([], rest)
      | some (P, c, _, S) => do
          let (acc, final) ← selLoop m thresh fuel (P.rotate 1 ++ S)
          some (c :: acc, final)

/-- Monadic ordered insert, comparing `scores.at(a) < scores.at(b)`. -/
def insertM (m : ScoreMap) (u : Nat) : List Nat → Option (List Nat)
  | [] => some [u]
  | v :: l => do
      let su ← mapAt m u
      let sv ← mapAt m v
      if su < sv then some (u :: v :: l)
      else do
        let r ← insertM m u l
        some (v :: r)

/-- Model of the `std::sort` call (lines 336-342) as an insertion sort in
the Option monad; `std::sort` leaves the order of tied scores
unspecified, and insertion sort is one conforming realization. -/
def sortM (m : ScoreMap) : List Nat → Option (List Nat)
  | [] => some []
  | u :: l => do
      let r ← sortM m l
      insertM m u r

/-- The `while` loop of the sort branch (lines 344-348): count the
leading prefix that passes the threshold, stopping at `n`; the score is
only consulted while `back < n` (short-circuit order of the `&&`). -/
def takeCount (m : ScoreMap) (thresh : WithTop ℚ) :
    List Nat → Nat → Option Nat
  | [], _ => some 0
  | _ :: _, 0 => some 0
  | u :: l, n + 1 => do
      let s ← mapAt m u
      if (s : WithTop ℚ) ≤ thresh then do
        let c ← takeCount m thresh l n
        some (c + 1)
      else some 0

/-- The bounded-selection branch of RankedSelector (taken when
`n < log2(uids.size())`).  Returns (result, final candidate vector). -/
def rankedSelBranch (thresh : WithTop ℚ) (uids : List Nat) (m : ScoreMap) (n : Nat) :
    Option (List Nat × List Nat) := do
  let (acc, rest) ← selLoop m thresh n uids
  some (acc, acc ++ rest)

/-- The full-sort branch of RankedSelector (lines 334-350): sort all uids
ascending by score, then take the leading prefix that passes the
threshold, bounded by `n`. -/
def rankedSortBranch (thresh : WithTop ℚ) (uids : List Nat) (m : ScoreMap) (n : Nat) :
    Option (List Nat × List Nat) := do
  let sorted ← sortM m uids
  let back ← takeCount m thresh sorted n
  some (sorted.take back, sorted)

/-- RankedSelector::operator() (lines 302-353).  The C++ branch test
`n < std::log2(uids.size())` over the reals is, for integer `n`,
equivalent to `2 ^ n < uids.size()` (log2 of 0 and 1 are -inf and 0, so
both send the test false).  Returns (optional result, final candidate
vector, final scores); `none` is the std::out_of_range thrown by
`scores.at` on a missing uid (the vector state at a throw is
unspecified, the pre-call vector is returned).  The score table is
returned as given because `at` never mutates it. -/
def RankedSelector (thresh : WithTop ℚ) (uids : List Nat) (scores : ScoreMap) (n : Nat) :
    Option (List Nat) × List Nat × ScoreMap :=
  if 2 ^ n < uids.length then
    match rankedSelBranch thresh uids scores n with
    | none => (none, uids, scores)
    | some (res, final) => (some res, final, scores)
  else
    match rankedSortBranch thresh uids scores n with
    | none => (none, uids, scores)
    | some (res, final) => (some res, final, scores)

/-! ### RouletteSelector (matchbin_utils.h lines 356-440) -/

/-- Modelled from the spec (section 4.4): walk the cumulative-weight
intervals of the weighted-index map. -/
def cumFind : List ℚ → ℚ → Nat
  | [], _ => 0
  | w :: ws, x => if x < w then 0 else cumFind ws (x - w) + 1

/-- Modelled from the spec (section 4.4): `IndexMap::Index(x)` is defined
for `x ∈ [0, total weight)`; outside that contract the model fails. -/
def imIndex (ws : List ℚ) (x : ℚ) : Option Nat :=
  if 0 ≤ x ∧ x < ws.sum then some (cumFind ws x) else none

/-- The threshold partition loop of RouletteSelector (lines 402-411),
processing `rem`; `pass` and `fail` are the segments `[0, partition)` and
`[partition, i)` of the candidate vector and `ms` the running minimum
score (initially +inf, updated for every uid before the threshold test).
When `uids[i]` passes, `swap(uids[i], uids[partition++])` appends it to
`pass` and rotates `fail` by one.  Scores are read through `operator[]`,
which inserts a `0` entry for a missing uid.  (The emp_assert calls are
debug-only and compile away.) -/
def partitionLoop (thresh : WithTop ℚ) :
    List Nat → List Nat → List Nat → ScoreMap → WithTop ℚ →
    List Nat × List Nat × ScoreMap × WithTop ℚ
  | [], pass, fail, m, ms => (pass, fail, m, ms)
  | u :: rem, pass, fail, m, ms =>
      let p := mapIdx m u
      let ms2 := min ms ((p.1 : WithTop ℚ))
      if (p.1 : WithTop ℚ) ≤ thresh then
        partitionLoop thresh rem (pass ++ [u]) (fail.rotate 1) p.2 ms2
      else
        partitionLoop thresh rem pass (fail ++ [u]) p.2 ms2

/-- The weight loop (lines 421-426): `match_index.Adjust(p, 1.0 / (skew +
scores[uids[p]] - baseline))` over the prefix; scores again read through
`operator[]`.  `baseline` is passed as a plain rational: it can be +inf
only when the whole candidate list is empty, in which case this loop
never runs. -/
def weightLoop (skew baselineQ : ℚ) : List Nat → ScoreMap → List ℚ × ScoreMap
  | [], m => ([], m)
  | u :: l, m =>
      let p := mapIdx m u
      let r := weightLoop skew baselineQ l p.2
      ((1 / (skew + p.1 - baselineQ)) :: r.1, r.2)

/-- The draw loop (lines 431-435): `n` draws with replacement.  Draw `j`
is `rand.GetDouble(total) = draws j * total`, with `draws j ∈ [0, 1)`
the caller-supplied random stream; the selected index feeds
`uids[idx]`, whose out-of-bounds access (empty vector) is `none`. -/
def sampleLoop (uidsAll : List Nat) (ws : List ℚ) (draws : Nat → ℚ) :
    Nat → Nat → Option (List Nat)
  | _, 0 => some []
  | j, count + 1 => do
      let idx ← imIndex ws (draws j * ws.sum)
      let u ← uidsAll[idx]?
      let rest ← sampleLoop uidsAll ws draws (j + 1) count
      some (u :: rest)

/-- RouletteSelector::operator() (lines 379-438): partition by the
threshold, baseline `min(min_score, max_baseline)`, weights
`1 / (skew + score - baseline)` over the prefix, then `n` weighted draws
with replacement. -/
def RouletteSelector (thresh : WithTop ℚ) (skew : ℚ) (maxBaseline : WithTop ℚ)
    (uids : List Nat) (scores : ScoreMap) (n : Nat) (draws : Nat → ℚ) :
    Option (List Nat) × List Nat × ScoreMap :=
  let part := partitionLoop thresh uids [] [] scores ⊤
  let baseline := min part.2.2.2 maxBaseline
  let wl := weightLoop skew (WithTop.untop' 0 baseline) part.1 part.2.2.1
  let uidsAll := part.1 ++ part.2.1
  match sampleLoop uidsAll wl.1 draws 0 n with
  | none => (none, uidsAll, wl.2)
  | some res => (some res, uidsAll, wl.2)

/-! ### DynamicSelector (matchbin_utils.h lines 442-461) -/

/-- Selector interface: candidate vector, score table and count to
(optional result, final candidate vector, final score table). -/
abbrev SelectorFn : Type :=
  List Nat → ScoreMap → Nat → Option (List Nat) × List Nat × ScoreMap

/-- DynamicSelector::operator(): forwards to `selectors[mode]`.  A mode
out of range trips the emp_assert / dereferences past the end; the model
reports failure with the state unchanged. -/
def DynamicSelector (selectors : List SelectorFn) (mode : Nat) : SelectorFn :=
  fun uids scores n =>
    match selectors[mode]? with
    | some s => s uids scores n
    | none => (none, uids, scores)

/-- Frame property of a selector call (spec section 4.2): provided every
candidate uid has a score entry, the call only reorders the candidate
vector (a permutation of its pre-call contents) and leaves the score
table unchanged. -/
def FramePreserving (s : SelectorFn) : Prop :=
  ∀ uids scores n, (∀ u ∈ uids, (mapFind scores u).isSome) →
    List.Perm (s uids scores n).2.1 uids ∧ (s uids scores n).2.2 = scores

/-! ### Basic facts about the helpers -/

theorem countOnesFuel_zero (fuel : Nat) : countOnesFuel fuel 0 = 0 := by
  cases fuel <;> simp [countOnesFuel]

theorem bsSub_self (W a : Nat) : bsSub W a a = 0 := by
  unfold bsSub
  rw [Nat.add_sub_cancel]
  exact Nat.mod_self _

theorem bsSub_of_le {W a b : Nat} (hab : a ≤ b) (hb : b < 2 ^ W) :
    bsSub W b a = b - a := by
  unfold bsSub
  have h1 : 2 ^ W + b - a = 2 ^ W + (b - a) := by omega
  rw [h1, Nat.add_mod_left]
  exact Nat.mod_eq_of_lt (by omega)

theorem wrap32_eq_self {z : Int} (h1 : -(2 ^ 31) ≤ z) (h2 : z ≤ 2 ^ 31 - 1) :
    wrap32 z = z := by
  unfold wrap32
  have : (z + 2 ^ 31) % 2 ^ 32 = z + 2 ^ 31 := Int.emod_eq_of_lt (by omega) (by omega)
  omega

/-! ### Claim C4: the asymmetric no-wrap metric -/

/-- C4: for width-W bit vectors read as unsigned integers, the
AsymmetricNoWrap distance is `(b - a) / (2^W + 1)` when `b ≥ a`, is the
sentinel `1.0` when `b < a`, and the sentinel strictly exceeds every
in-order distance. -/
theorem C4_asym_no_wrap (W a b : Nat) (_ha : a < 2 ^ W) (hb : b < 2 ^ W) :
    (a ≤ b → AsymmetricNoWrapMetric W a b = ((b : ℚ) - (a : ℚ)) / (2 ^ W + 1)) ∧
    (b < a → AsymmetricNoWrapMetric W a b = 1) ∧
    (∀ a₂ b₂ : Nat, a₂ < 2 ^ W → b₂ < 2 ^ W → a₂ ≤ b₂ →
      AsymmetricNoWrapMetric W a₂ b₂ < 1) := by
  have hpos : (0 : ℚ) < 2 ^ W + 1 := by positivity
  refine ⟨?_, ?_, ?_⟩
  · intro hab
    rw [AsymmetricNoWrapMetric, if_pos hab, bsSub_of_le hab hb, MaxDouble]
    rw [Nat.cast_sub hab]
  · intro hba
    rw [AsymmetricNoWrapMetric, if_neg (by omega), div_self (ne_of_gt (by
      rw [MaxDouble]; positivity))]
  · intro a₂ b₂ _ hb₂ hab₂
    rw [AsymmetricNoWrapMetric, if_pos hab₂, bsSub_of_le hab₂ hb₂, MaxDouble]
    rw [div_lt_one (by positivity)]
    have : ((b₂ - a₂ : Nat) : ℚ) ≤ ((b₂ : Nat) : ℚ) := by
      exact_mod_cast Nat.cast_le.mpr (Nat.sub_le _ _)
    have hb₂Q : ((b₂ : Nat) : ℚ) < 2 ^ W := by exact_mod_cast hb₂
    push_cast at this hb₂Q ⊢
    linarith

/-- C4 witness at W = 4, a = 3, b = 9 (and the counter-order pair 9, 3). -/
theorem C4_asym_no_wrap_witness :
    (3 : Nat) < 2 ^ 4 ∧ (9 : Nat) < 2 ^ 4 ∧
    ((3 : Nat) ≤ 9 → AsymmetricNoWrapMetric 4 3 9 = ((9 : ℚ) - (3 : ℚ)) / (2 ^ 4 + 1)) := by
  refine ⟨by decide, by decide, ?_⟩
  exact (C4_asym_no_wrap 4 3 9 (by decide) (by decide)).1

/-! ### Claim C5: the absolute-difference metric -/

/-- C5 counterexample: at `a = INT_MAX`, `b = INT_MIN` the code's result
is not `|a - b| / INT_MAX` (the subtraction is done in 32-bit int and
wraps; no widening takes place), and the claimed value itself exceeds 1. -/
theorem C5_absdiff_counterexample :
    AbsDiffMetric 2147483647 (-2147483648) ≠
      |(2147483647 : ℚ) - (-2147483648 : ℚ)| / (2 ^ 31 - 1) ∧
    1 < |(2147483647 : ℚ) - (-2147483648 : ℚ)| / (2 ^ 31 - 1) := by
  have h1 : wrap32 (2147483647 - -2147483648) = -1 := by decide
  have h2 : intAbs (-1) = 1 := by decide
  have habs : |(2147483647 : ℚ) - (-2147483648 : ℚ)| = 4294967295 := by
    rw [show (2147483647 : ℚ) - (-2147483648 : ℚ) = 4294967295 by norm_num,
      abs_of_pos (by norm_num)]
  constructor
  · rw [AbsDiffMetric, h1, h2, habs]
    norm_num
  · rw [habs]
    norm_num

/-- C5 amended: whenever the true difference fits in int
(`|a - b| ≤ INT_MAX`), the metric equals `|a - b| / INT_MAX` and lies in
`[0, 1]`; outside that range the int subtraction wraps modulo 2^32 and
the claimed identity fails. -/
theorem C5_absdiff_amended (a b : Int) (h : |a - b| ≤ 2 ^ 31 - 1) :
    AbsDiffMetric a b = |(a : ℚ) - (b : ℚ)| / (2 ^ 31 - 1) ∧
    0 ≤ AbsDiffMetric a b ∧ AbsDiffMetric a b ≤ 1 := by
  have habs := abs_le.mp h
  have hw : wrap32 (a - b) = a - b := wrap32_eq_self (by omega) (by omega)
  have hne : a - b ≠ -(2 ^ 31) := by omega
  have hval : AbsDiffMetric a b = |(a : ℚ) - (b : ℚ)| / (2 ^ 31 - 1) := by
    rw [AbsDiffMetric, hw, intAbs, if_neg hne]
    push_cast
    rfl
  have hq : |(a : ℚ) - (b : ℚ)| ≤ 2 ^ 31 - 1 := by exact_mod_cast h
  refine ⟨hval, ?_, ?_⟩
  · rw [hval]
    positivity
  · rw [hval, div_le_one (by norm_num)]
    exact hq

/-- C5 amended witness at a = 5, b = 2. -/
theorem C5_absdiff_amended_witness :
    |(5 : Int) - 2| ≤ 2 ^ 31 - 1 ∧
    (AbsDiffMetric 5 2 = |(5 : ℚ) - (2 : ℚ)| / (2 ^ 31 - 1) ∧
      0 ≤ AbsDiffMetric 5 2 ∧ AbsDiffMetric 5 2 ≤ 1) :=
  ⟨by decide, C5_absdiff_amended 5 2 (by decide)⟩

/-! ### Claim C7: every listed metric vanishes on the diagonal -/

/-- C7: `d(a, a) = 0` for the Hamming, AbsDiff, SymWrap, SymNoWrap,
NextUp, AsymWrap and AsymNoWrap metrics. -/
theorem C7_diagonal_zero (W Max a : Nat) (z : Int) :
    HammingMetric W a a = 0 ∧ AbsDiffMetric z z = 0 ∧
    SymmetricWrapMetric W a a = 0 ∧ SymmetricNoWrapMetric W a a = 0 ∧
    NextUpMetric Max a a = 0 ∧ AsymmetricWrapMetric W a a = 0 ∧
    AsymmetricNoWrapMetric W a a = 0 := by
  refine ⟨?_, ?_, ?_, ?_, ?_, ?_, ?_⟩
  · rw [HammingMetric, Nat.xor_self, countOnesFuel_zero]
    simp
  · rw [AbsDiffMetric, sub_self]
    have : wrap32 0 = 0 := by decide
    rw [this, intAbs, if_neg (by decide)]
    simp
  · rw [SymmetricWrapMetric, bsSub_self]
    simp
  · rw [SymmetricNoWrapMetric, if_neg (lt_irrefl a), bsSub_self]
    simp
  · rw [NextUpMetric]
    have hcore : (((Max + 1) % 2 ^ 64 + a) % 2 ^ 64 + (2 ^ 64 - a % 2 ^ 64)) % 2 ^ 64 =
        (Max + 1) % 2 ^ 64 := by omega
    simp only [hcore, Nat.mod_self, Nat.zero_mod, Nat.cast_zero, zero_div]
  · rw [AsymmetricWrapMetric, bsSub_self]
    simp
  · rw [AsymmetricNoWrapMetric, if_pos (le_refl a), bsSub_self]
    simp

/-! ### Rotation lemmas for the Slide modifier -/

theorem rotl_width_zero (k a : Nat) : rotl 0 k a = a := by
  simp [rotl, Nat.mod_one]

theorem rotl_mod (W k a : Nat) : rotl W k a = rotl W (k % W) a := by
  unfold rotl
  rw [Nat.mod_mod_of_dvd k (dvd_refl W)]

theorem rotl_lt {W a : Nat} (k : Nat) (ha : a < 2 ^ W) : rotl W k a < 2 ^ W := by
  rcases Nat.eq_zero_or_pos W with hW | hW
  · subst hW
    rw [rotl_width_zero]
    exact ha
  unfold rotl
  set s := W - k % W with hs
  have hks : k % W < W := Nat.mod_lt _ hW
  have hsW : s ≤ W := Nat.sub_le _ _
  have hsum : s + k % W = W := by omega
  have hlow : a % 2 ^ s < 2 ^ s := Nat.mod_lt _ (Nat.pos_pow_of_pos _ (by norm_num))
  have hhigh : a / 2 ^ s < 2 ^ (k % W) := by
    rw [Nat.div_lt_iff_lt_mul (Nat.pos_pow_of_pos _ (by norm_num))]
    calc a < 2 ^ W := ha
    _ = 2 ^ (k % W) * 2 ^ s := by rw [← pow_add]; congr 1; omega
  calc a % 2 ^ s * 2 ^ (k % W) + a / 2 ^ s
      ≤ (2 ^ s - 1) * 2 ^ (k % W) + (2 ^ (k % W) - 1) := by
        apply Nat.add_le_add
        · exact Nat.mul_le_mul_right _ (by omega)
        · omega
  _ < 2 ^ W := by
        have h1 : (1 : Nat) ≤ 2 ^ (k % W) := Nat.one_le_two_pow
        have h2 : (1 : Nat) ≤ 2 ^ s := Nat.one_le_two_pow
        have hprod : 2 ^ s * 2 ^ (k % W) = 2 ^ W := by rw [← pow_add, hsum]
        have hsub : (2 ^ s - 1) * 2 ^ (k % W) = 2 ^ s * 2 ^ (k % W) - 2 ^ (k % W) := by
          rw [Nat.sub_mul, one_mul]
        have h3 : 2 ^ (k % W) ≤ 2 ^ s * 2 ^ (k % W) :=
          Nat.le_mul_of_pos_left _ (Nat.pos_pow_of_pos _ (by norm_num))
        omega

theorem testBit_split (x y s j : Nat) (hy : y < 2 ^ s) :
    (x * 2 ^ s + y).testBit j =
      if j < s then y.testBit j else x.testBit (j - s) := by
  by_cases hj : j < s
  · rw [if_pos hj]
    have hdecomp : x * 2 ^ s + y = y + x * 2 ^ (s - j - 1) * 2 * 2 ^ j := by
      have : 2 ^ s = 2 ^ (s - j - 1) * 2 * 2 ^ j := by
        rw [mul_assoc, ← pow_succ', ← pow_add]
        congr 1
        omega
      rw [this]
      ring
    rw [Nat.testBit_to_div_mod, Nat.testBit_to_div_mod, hdecomp,
      Nat.add_mul_div_right _ _ (Nat.pos_pow_of_pos j (by norm_num)),
      Nat.add_mul_mod_self_right]
  · rw [if_neg hj]
    push_neg at hj
    have hdecomp : (x * 2 ^ s + y) / 2 ^ j = x / 2 ^ (j - s) := by
      have hpow : 2 ^ j = 2 ^ s * 2 ^ (j - s) := by rw [← pow_add]; congr 1; omega
      rw [hpow, ← Nat.div_div_eq_div_mul]
      have : (x * 2 ^ s + y) / 2 ^ s = x := by
        rw [add_comm, Nat.add_mul_div_right _ _ (Nat.pos_pow_of_pos s (by norm_num)),
          Nat.div_eq_of_lt hy, zero_add]
      rw [this]
    rw [Nat.testBit_to_div_mod, Nat.testBit_to_div_mod, hdecomp]

theorem rotl_testBit {W a : Nat} (k j : Nat) (hW : 0 < W) (ha : a < 2 ^ W) (hj : j < W) :
    (rotl W k a).testBit j = a.testBit ((j + (W - k % W)) % W) := by
  unfold rotl
  set s := W - k % W with hs
  have hks : k % W < W := Nat.mod_lt _ hW
  have hsW : s ≤ W := Nat.sub_le _ _
  have hspos : 0 < s := by omega
  have hhigh : a / 2 ^ s < 2 ^ (k % W) := by
    rw [Nat.div_lt_iff_lt_mul (Nat.pos_pow_of_pos _ (by norm_num))]
    calc a < 2 ^ W := ha
    _ = 2 ^ (k % W) * 2 ^ s := by rw [← pow_add]; congr 1; omega
  rw [testBit_split _ _ _ _ hhigh]
  by_cases hjk : j < k % W
  · rw [if_pos hjk]
    have hidx : (j + s) % W = j + s := Nat.mod_eq_of_lt (by omega)
    rw [hidx, Nat.testBit_to_div_mod, Nat.testBit_to_div_mod,
      Nat.div_div_eq_div_mul, ← pow_add]
    rw [Nat.add_comm s j]
  · rw [if_neg hjk]
    push_neg at hjk
    have hidx : (j + s) % W = j - k % W := by
      have h1 : j + s = (j - k % W) + W := by omega
      rw [h1, Nat.add_mod_right]
      apply Nat.mod_eq_of_lt
      omega
    rw [hidx, Nat.testBit_mod_two_pow]
    have : j - k % W < s := by omega
    simp [this]

theorem rotl_rotl {W a : Nat} (i k : Nat) (ha : a < 2 ^ W) :
    rotl W i (rotl W k a) = rotl W (i + k) a := by
  rcases Nat.eq_zero_or_pos W with hW | hW
  · subst hW
    rw [rotl_width_zero, rotl_width_zero, rotl_width_zero]
  apply Nat.eq_of_testBit_eq
  intro j
  by_cases hj : j < W
  · have hka : rotl W k a < 2 ^ W := rotl_lt k ha
    rw [rotl_testBit i j hW hka hj]
    have hidx1 : (j + (W - i % W)) % W < W := Nat.mod_lt _ hW
    rw [rotl_testBit k _ hW ha hidx1, rotl_testBit (i + k) j hW ha hj]
    congr 1
    rw [Nat.mod_add_mod]
    have hi : i % W < W := Nat.mod_lt _ hW
    have hk : k % W < W := Nat.mod_lt _ hW
    have hik : (i + k) % W = (i % W + k % W) % W := by
      rw [Nat.add_mod]
    by_cases hcase : i % W + k % W < W
    · have hm : (i + k) % W = i % W + k % W := by
        rw [hik]
        exact Nat.mod_eq_of_lt hcase
      have harith : j + (W - i % W) + (W - k % W) =
          j + (W - (i + k) % W) + W := by
        rw [hm]
        omega
      rw [harith, Nat.add_mod_right]
    · push_neg at hcase
      have hm : (i + k) % W = i % W + k % W - W := by
        rw [hik, Nat.mod_eq_sub_mod hcase]
        apply Nat.mod_eq_of_lt
        omega
      have harith : j + (W - i % W) + (W - k % W) = j + (W - (i + k) % W) := by
        rw [hm]
        omega
      rw [harith]
  · push_neg at hj
    have h2W : (2 : Nat) ^ W ≤ 2 ^ j := Nat.pow_le_pow_right (by norm_num) hj
    rw [Nat.testBit_lt_two_pow (lt_of_lt_of_le (rotl_lt i (rotl_lt k ha)) h2W),
      Nat.testBit_lt_two_pow (lt_of_lt_of_le (rotl_lt (i + k) ha) h2W)]

/-! ### Claim C8: slide invariance -/

theorem rotl_shift_perm (W k : Nat) (hk : k < W) :
    List.Perm ((List.range W).map (fun i => (i + k) % W)) (List.range W) := by
  have hW : 0 < W := by omega
  apply (List.perm_ext_iff_of_nodup ?_ (List.nodup_range W)).mpr
  · intro x
    simp only [List.mem_map, List.mem_range]
    constructor
    · rintro ⟨i, _, rfl⟩
      exact Nat.mod_lt _ hW
    · intro hx
      refine ⟨(x + (W - k)) % W, Nat.mod_lt _ hW, ?_⟩
      rw [Nat.mod_add_mod]
      have h1 : x + (W - k) + k = x + W := by omega
      rw [h1, Nat.add_mod_right]
      exact Nat.mod_eq_of_lt hx
  · refine List.Nodup.map_on ?_ (List.nodup_range W)
    intro i hi j hj hij
    rw [List.mem_range] at hi hj
    have h1 : i % W = j % W := Nat.ModEq.add_right_cancel' k hij
    rwa [Nat.mod_eq_of_lt hi, Nat.mod_eq_of_lt hj] at h1

/-- C8: for every inner metric `f`, rotating the query by `k < W` does
not change the Slide-modified distance. -/
theorem C8_slide_invariance (W : Nat) (f : Nat → Nat → ℚ) (a b k : Nat)
    (hk : k < W) (ha : a < 2 ^ W) :
    SlideMod W f (rotl W k a) b = SlideMod W f a b := by
  unfold SlideMod
  have hmap : (List.range W).map (fun i => f (rotl W i (rotl W k a)) b) =
      ((List.range W).map (fun i => (i + k) % W)).map (fun i => f (rotl W i a) b) := by
    rw [List.map_map]
    apply List.map_congr_left
    intro i _
    show f (rotl W i (rotl W k a)) b = f (rotl W ((i + k) % W) a) b
    rw [rotl_rotl i k ha, rotl_mod W (i + k) a]
  rw [hmap]
  exact ((rotl_shift_perm W k hk).map (fun i => f (rotl W i a) b)).foldl_eq 1

/-- C8 witness: sliding Hamming over width 4, query 12 (1100), tag 3
(0011), rotation 2. -/
theorem C8_slide_invariance_witness :
    2 < 4 ∧ (12 : Nat) < 2 ^ 4 ∧
    SlideMod 4 (HammingMetric 4) (rotl 4 2 12) 3 = SlideMod 4 (HammingMetric 4) 12 3 :=
  ⟨by decide, by decide,
    C8_slide_invariance 4 (HammingMetric 4) 12 3 2 (by decide) (by decide)⟩

/-! ### Score-map lemmas -/

theorem mapFind_append (m₁ m₂ : ScoreMap) (u : Nat) :
    mapFind (m₁ ++ m₂) u = ((mapFind m₁ u).orElse (fun _ => mapFind m₂ u)) := by
  induction m₁ with
  | nil => simp [mapFind]
  | cons kv t ih =>
      obtain ⟨k, v⟩ := kv
      by_cases hk : k = u
      · simp [mapFind, hk]
      · simp [mapFind, hk, ih]

theorem mapIdx_fst (m : ScoreMap) (u : Nat) : (mapIdx m u).1 = effScore m u := by
  unfold mapIdx effScore
  cases h : mapFind m u <;> simp [h]

theorem mapIdx_effScore (m : ScoreMap) (u v : Nat) :
    effScore (mapIdx m u).2 v = effScore m v := by
  unfold mapIdx
  cases h : mapFind m u with
  | some q => rfl
  | none =>
      show effScore (m ++ [(u, 0)]) v = effScore m v
      unfold effScore
      rw [mapFind_append]
      cases hv : mapFind m v with
      | some q => rfl
      | none =>
          by_cases huv : u = v
          · subst huv
            simp [mapFind, hv]
          · simp [mapFind, huv, hv]

theorem mapIdx_isSome (m : ScoreMap) (u v : Nat) (h : (mapFind m v).isSome) :
    (mapFind (mapIdx m u).2 v).isSome := by
  unfold mapIdx
  cases hu : mapFind m u with
  | some q => exact h
  | none =>
      show (mapFind (m ++ [(u, 0)]) v).isSome
      rw [mapFind_append]
      cases hv : mapFind m v with
      | some q => rfl
      | none => rw [hv] at h; simp at h

theorem mapIdx_isSome_self (m : ScoreMap) (u : Nat) :
    (mapFind (mapIdx m u).2 u).isSome := by
  unfold mapIdx
  cases hu : mapFind m u with
  | some q => simp [hu]
  | none =>
      show (mapFind (m ++ [(u, 0)]) u).isSome
      rw [mapFind_append, hu]
      simp [mapFind]

theorem mapIdx_of_isSome (m : ScoreMap) (u : Nat) (h : (mapFind m u).isSome) :
    (mapIdx m u).2 = m := by
  unfold mapIdx
  cases hu : mapFind m u with
  | some q => rfl
  | none => rw [hu] at h; simp at h

theorem mapFind_of_isSome_eff (m : ScoreMap) (u : Nat) (h : (mapFind m u).isSome) :
    mapFind m u = some (effScore m u) := by
  unfold effScore
  cases hu : mapFind m u with
  | some q => rfl
  | none => rw [hu] at h; simp at h

/-! ### Soundness of the bounded selection sort -/

theorem findMinSplit_spec (m : ScoreMap) (thresh : WithTop ℚ) (f : Nat → ℚ) :
    ∀ l : List Nat, (∀ u ∈ l, mapFind m u = some (f u)) →
    (findMinSplit m thresh l = some none ∧
      ∀ u ∈ l, ¬((f u : WithTop ℚ) ≤ thresh)) ∨
    (∃ P c S, findMinSplit m thresh l = some (some (P, c, f c, S)) ∧
      l = P ++ c :: S ∧ ((f c : WithTop ℚ) ≤ thresh) ∧
      ∀ u ∈ l, ((f u : WithTop ℚ) ≤ thresh) → f c ≤ f u) := by
  intro l
  induction l with
  | nil => intro _; exact Or.inl ⟨rfl, by simp⟩
  | cons u l ih =>
      intro H
      have hu : mapFind m u = some (f u) := H u (List.mem_cons_self u l)
      have Hl : ∀ v ∈ l, mapFind m v = some (f v) :=
        fun v hv => H v (List.mem_cons_of_mem u hv)
      rcases ih Hl with ⟨heq, hall⟩ | ⟨P, c, S, heq, hsplit, hcpass, hmin⟩
      · by_cases hpass : (f u : WithTop ℚ) ≤ thresh
        · refine Or.inr ⟨[], u, l, ?_, rfl, hpass, ?_⟩
          · simp [findMinSplit, mapAt, hu, heq, hpass]
          · intro v hv hvpass
            rcases List.mem_cons.mp hv with rfl | hv2
            · exact le_refl _
            · exact absurd hvpass (hall v hv2)
        · refine Or.inl ⟨?_, ?_⟩
          · simp [findMinSplit, mapAt, hu, heq, hpass]
          · intro v hv
            rcases List.mem_cons.mp hv with rfl | hv2
            · exact hpass
            · exact hall v hv2
      · by_cases hcond : ((f u : WithTop ℚ) ≤ thresh ∧ f u ≤ f c)
        · refine Or.inr ⟨[], u, l, ?_, rfl, hcond.1, ?_⟩
          · simp [findMinSplit, mapAt, hu, heq, hcond]
          · intro v hv hvpass
            rcases List.mem_cons.mp hv with rfl | hv2
            · exact le_refl _
            · exact le_trans hcond.2 (hmin v hv2 hvpass)
        · refine Or.inr ⟨u :: P, c, S, ?_, by rw [hsplit]; rfl, hcpass, ?_⟩
          · simp [findMinSplit, mapAt, hu, heq, hcond]
          · intro v hv hvpass
            rcases List.mem_cons.mp hv with rfl | hv2
            · by_contra hlt
              exact hcond ⟨hvpass, le_of_not_le hlt⟩
            · exact hmin v hv2 hvpass

theorem insertionSort_eq_cons {X X₂ : List ℚ} {q : ℚ}
    (hp : List.Perm X (q :: X₂)) (hmin : ∀ y ∈ X₂, q ≤ y) :
    List.insertionSort (· ≤ ·) X = q :: List.insertionSort (· ≤ ·) X₂ := by
  have hperm : List.Perm (List.insertionSort (· ≤ ·) X)
      (q :: List.insertionSort (· ≤ ·) X₂) :=
    (List.perm_insertionSort _ X).trans
      (hp.trans ((List.perm_insertionSort _ X₂).symm.cons q))
  have hsorted : List.Sorted (· ≤ ·) (q :: List.insertionSort (· ≤ ·) X₂) := by
    refine List.sorted_cons.mpr ⟨?_, List.sorted_insertionSort _ X₂⟩
    intro y hy
    exact hmin y ((List.perm_insertionSort _ X₂).subset hy)
  exact List.eq_of_perm_of_sorted hperm (List.sorted_insertionSort _ X) hsorted

theorem selLoop_spec (m : ScoreMap) (thresh : WithTop ℚ) (f : Nat → ℚ) :
    ∀ (fuel : Nat) (l : List Nat), (∀ u ∈ l, mapFind m u = some (f u)) →
    ∃ acc final, selLoop m thresh fuel l = some (acc, final) ∧
      List.Perm (acc ++ final) l ∧
      List.map f acc =
        (List.insertionSort (· ≤ ·)
          ((l.filter (fun u => decide ((f u : WithTop ℚ) ≤ thresh))).map f)).take fuel := by
  intro fuel
  induction fuel with
  | zero => intro l _; exact ⟨[], l, rfl, by simp, by simp⟩
  | succ fuel ih =>
      intro l H
      rcases findMinSplit_spec m thresh f l H with ⟨heq, hall⟩ | ⟨P, c, S, heq, hsplit, hcpass, hmin⟩
      · refine ⟨[], l, ?_, by simp, ?_⟩
        · simp [selLoop, heq]
        · have hfilter : l.filter (fun u => decide ((f u : WithTop ℚ) ≤ thresh)) = [] := by
            apply List.filter_eq_nil_iff.mpr
            intro a ha
            simp only [decide_eq_true_eq]
            exact hall a ha
          simp [hfilter]
      · have hcrest : List.Perm l (c :: (P.rotate 1 ++ S)) := by
          rw [hsplit]
          exact List.perm_middle.trans
            (((List.rotate_perm P 1).symm.append_right S).cons c)
        have hsub : ∀ u ∈ P.rotate 1 ++ S, u ∈ l := by
          intro u hu
          have : u ∈ c :: (P.rotate 1 ++ S) := List.mem_cons_of_mem c hu
          exact hcrest.symm.subset this
        have H2 : ∀ u ∈ P.rotate 1 ++ S, mapFind m u = some (f u) :=
          fun u hu => H u (hsub u hu)
        obtain ⟨acc, final, hsel, hperm, hseq⟩ := ih (P.rotate 1 ++ S) H2
        refine ⟨c :: acc, final, ?_, ?_, ?_⟩
        · simp [selLoop, heq, hsel]
        · show List.Perm (c :: (acc ++ final)) l
          exact (hperm.cons c).trans hcrest.symm
        · have hkey : List.insertionSort (· ≤ ·)
              ((l.filter (fun u => decide ((f u : WithTop ℚ) ≤ thresh))).map f) =
              f c :: List.insertionSort (· ≤ ·)
                (((P.rotate 1 ++ S).filter
                  (fun u => decide ((f u : WithTop ℚ) ≤ thresh))).map f) := by
            apply insertionSort_eq_cons
            · have hf := hcrest.filter (fun u => decide ((f u : WithTop ℚ) ≤ thresh))
              rw [List.filter_cons_of_pos (by simpa using hcpass)] at hf
              simpa using hf.map f
            · intro y hy
              obtain ⟨v, hvmem, rfl⟩ := List.mem_map.mp hy
              have hv2 := List.mem_filter.mp hvmem
              exact hmin v (hsub v hv2.1) (by simpa using hv2.2)
          rw [hkey]
          simp only [List.map_cons, List.take_succ_cons, hseq]

/-! ### Soundness of the sort branch -/

theorem insertM_perm (m : ScoreMap) (u : Nat) :
    ∀ l r, insertM m u l = some r → List.Perm r (u :: l) := by
  intro l
  induction l with
  | nil =>
      intro r hr
      simp only [insertM, Option.some_inj] at hr
      subst hr
      exact List.Perm.refl _
  | cons v l ih =>
      intro r hr
      simp only [insertM, mapAt, Option.bind_eq_bind] at hr
      cases hsu : mapFind m u with
      | none => rw [hsu] at hr; simp at hr
      | some su =>
          cases hsv : mapFind m v with
          | none => rw [hsu, hsv] at hr; simp at hr
          | some sv =>
              rw [hsu, hsv] at hr
              simp only [Option.some_bind] at hr
              by_cases hlt : su < sv
              · rw [if_pos hlt] at hr
                injection hr with hr
                exact hr ▸ List.Perm.refl _
              · rw [if_neg hlt] at hr
                cases hrec : insertM m u l with
                | none => rw [hrec] at hr; simp at hr
                | some r2 =>
                    rw [hrec] at hr
                    simp only [Option.some_bind, Option.some_inj] at hr
                    subst hr
                    exact ((ih r2 hrec).cons v).trans (List.Perm.swap u v l)

theorem insertM_spec (m : ScoreMap) (f : Nat → ℚ) (u : Nat)
    (hu : mapFind m u = some (f u)) :
    ∀ l, (∀ v ∈ l, mapFind m v = some (f v)) →
      List.Sorted (· ≤ ·) (l.map f) →
      ∃ r, insertM m u l = some r ∧ List.Perm r (u :: l) ∧
        List.Sorted (· ≤ ·) (r.map f) := by
  intro l
  induction l with
  | nil =>
      intro _ _
      exact ⟨[u], rfl, List.Perm.refl _, List.sorted_singleton _⟩
  | cons v l ih =>
      intro H hs
      have hv : mapFind m v = some (f v) := H v (List.mem_cons_self v l)
      have Hl : ∀ w ∈ l, mapFind m w = some (f w) :=
        fun w hw => H w (List.mem_cons_of_mem v hw)
      have hs2 := List.sorted_cons.mp hs
      by_cases hlt : f u < f v
      · refine ⟨u :: v :: l, ?_, List.Perm.refl _, ?_⟩
        · simp [insertM, mapAt, hu, hv, hlt]
        · refine List.sorted_cons.mpr ⟨?_, hs⟩
          intro y hy
          rcases List.mem_cons.mp hy with rfl | hy2
          · exact le_of_lt hlt
          · exact le_trans (le_of_lt hlt) (hs2.1 y hy2)
      · obtain ⟨r2, hr2, hperm2, hsorted2⟩ := ih Hl hs2.2
        refine ⟨v :: r2, ?_, ?_, ?_⟩
        · simp [insertM, mapAt, hu, hv, hlt, hr2]
        · exact ((hperm2).cons v).trans (List.Perm.swap u v l)
        · refine List.sorted_cons.mpr ⟨?_, hsorted2⟩
          intro y hy
          have : y ∈ (u :: l).map f := (hperm2.map f).subset hy
          rcases List.mem_cons.mp this with rfl | hy2
          · exact le_of_not_lt hlt
          · obtain ⟨w, hw, rfl⟩ := List.mem_map.mp hy2
            exact hs2.1 (f w) (List.mem_map_of_mem f hw)

theorem sortM_perm (m : ScoreMap) :
    ∀ l r, sortM m l = some r → List.Perm r l := by
  intro l
  induction l with
  | nil =>
      intro r hr
      simp only [sortM, Option.some_inj] at hr
      exact hr ▸ List.Perm.refl _
  | cons u l ih =>
      intro r hr
      simp only [sortM, Option.bind_eq_bind] at hr
      cases hrec : sortM m l with
      | none => rw [hrec] at hr; simp at hr
      | some r1 =>
          rw [hrec] at hr
          simp only [Option.some_bind] at hr
          exact (insertM_perm m u r1 r hr).trans ((ih r1 hrec).cons u)

theorem sortM_spec (m : ScoreMap) (f : Nat → ℚ) :
    ∀ l, (∀ u ∈ l, mapFind m u = some (f u)) →
      ∃ r, sortM m l = some r ∧ List.Perm r l ∧ List.Sorted (· ≤ ·) (r.map f) := by
  intro l
  induction l with
  | nil => intro _; exact ⟨[], rfl, List.Perm.refl _, List.sorted_nil⟩
  | cons u l ih =>
      intro H
      have hu : mapFind m u = some (f u) := H u (List.mem_cons_self u l)
      have Hl : ∀ v ∈ l, mapFind m v = some (f v) :=
        fun v hv => H v (List.mem_cons_of_mem u hv)
      obtain ⟨r1, hr1, hperm1, hsorted1⟩ := ih Hl
      have Hr1 : ∀ v ∈ r1, mapFind m v = some (f v) :=
        fun v hv => Hl v (hperm1.subset hv)
      obtain ⟨r, hr, hperm, hsorted⟩ := insertM_spec m f u hu r1 Hr1 hsorted1
      refine ⟨r, ?_, hperm.trans (hperm1.cons u), hsorted⟩
      simp [sortM, hr1, hr]

theorem sortM_map_eq (m : ScoreMap) (f : Nat → ℚ) (l r : List Nat)
    (_hr : sortM m l = some r) (hperm : List.Perm r l)
    (hsorted : List.Sorted (· ≤ ·) (r.map f)) :
    r.map f = List.insertionSort (· ≤ ·) (l.map f) := by
  apply List.eq_of_perm_of_sorted ((hperm.map f).trans
    (List.perm_insertionSort _ (l.map f)).symm) hsorted
  exact List.sorted_insertionSort _ _

theorem takeCount_spec (m : ScoreMap) (thresh : WithTop ℚ) (f : Nat → ℚ) :
    ∀ l n, (∀ u ∈ l, mapFind m u = some (f u)) →
      ∃ back, takeCount m thresh l n = some back ∧ back ≤ n ∧ back ≤ l.length ∧
        (∀ u ∈ l.take back, (f u : WithTop ℚ) ≤ thresh) := by
  intro l
  induction l with
  | nil => intro n _; exact ⟨0, rfl, Nat.zero_le _, Nat.zero_le _, by simp⟩
  | cons u l ih =>
      intro n H
      have hu : mapFind m u = some (f u) := H u (List.mem_cons_self u l)
      have Hl : ∀ v ∈ l, mapFind m v = some (f v) :=
        fun v hv => H v (List.mem_cons_of_mem u hv)
      cases n with
      | zero => exact ⟨0, rfl, le_refl _, Nat.zero_le _, by simp⟩
      | succ n =>
          by_cases hpass : (f u : WithTop ℚ) ≤ thresh
          · obtain ⟨back2, hb2, hb2n, hb2len, hb2pass⟩ := ih n Hl
            refine ⟨back2 + 1, ?_, by omega, by simp; omega, ?_⟩
            · simp [takeCount, mapAt, hu, hpass, hb2]
            · intro v hv
              rw [List.take_succ_cons] at hv
              rcases List.mem_cons.mp hv with rfl | hv2
              · exact hpass
              · exact hb2pass v hv2
          · refine ⟨0, ?_, Nat.zero_le _, Nat.zero_le _, by simp⟩
            simp [takeCount, mapAt, hu, hpass]

/-! ### Counting and splitting lemmas for the sort branch -/

theorem takeCount_sorted_eq (m : ScoreMap) (thresh : WithTop ℚ) (f : Nat → ℚ) :
    ∀ l n, (∀ u ∈ l, mapFind m u = some (f u)) →
      List.Sorted (· ≤ ·) (l.map f) →
      takeCount m thresh l n =
        some (min n (l.countP (fun u => decide ((f u : WithTop ℚ) ≤ thresh)))) := by
  intro l
  induction l with
  | nil => intro n _ _; simp [takeCount]
  | cons u l ih =>
      intro n H hs
      have hu : mapFind m u = some (f u) := H u (List.mem_cons_self u l)
      have Hl : ∀ v ∈ l, mapFind m v = some (f v) :=
        fun v hv => H v (List.mem_cons_of_mem u hv)
      have hs2 := List.sorted_cons.mp hs
      cases n with
      | zero => simp [takeCount]
      | succ n =>
          by_cases hpass : (f u : WithTop ℚ) ≤ thresh
          · rw [List.countP_cons_of_pos _ _ (by simpa using hpass)]
            have hrec := ih n Hl hs2.2
            have : min (n + 1)
                (l.countP (fun u => decide ((f u : WithTop ℚ) ≤ thresh)) + 1) =
                min n (l.countP (fun u => decide ((f u : WithTop ℚ) ≤ thresh))) + 1 := by
              omega
            rw [this]
            simp [takeCount, mapAt, hu, hpass, hrec]
          · have hzero : (u :: l).countP
                (fun u => decide ((f u : WithTop ℚ) ≤ thresh)) = 0 := by
              rw [List.countP_eq_zero]
              intro v hv
              simp only [decide_eq_true_eq]
              rcases List.mem_cons.mp hv with rfl | hv2
              · exact hpass
              · intro hvpass
                apply hpass
                have huv : f u ≤ f v := hs2.1 (f v) (List.mem_map_of_mem f hv2)
                exact le_trans (WithTop.coe_le_coe.mpr huv) hvpass
            rw [hzero]
            simp [takeCount, mapAt, hu, hpass]

theorem insertionSort_split (thresh : WithTop ℚ) (X : List ℚ) :
    List.insertionSort (· ≤ ·) X =
      List.insertionSort (· ≤ ·)
        (X.filter (fun q : ℚ => decide ((q : WithTop ℚ) ≤ thresh))) ++
      List.insertionSort (· ≤ ·)
        (X.filter (fun q : ℚ => !decide ((q : WithTop ℚ) ≤ thresh))) := by
  have hperm : List.Perm (List.insertionSort (· ≤ ·) X)
      (List.insertionSort (· ≤ ·)
        (X.filter (fun q : ℚ => decide ((q : WithTop ℚ) ≤ thresh))) ++
       List.insertionSort (· ≤ ·)
        (X.filter (fun q : ℚ => !decide ((q : WithTop ℚ) ≤ thresh)))) := by
    refine (List.perm_insertionSort _ X).trans ?_
    refine ((List.filter_append_perm
      (fun q : ℚ => decide ((q : WithTop ℚ) ≤ thresh)) X).symm).trans ?_
    exact ((List.perm_insertionSort _ _).symm).append ((List.perm_insertionSort _ _).symm)
  have hsorted : List.Sorted (· ≤ ·)
      (List.insertionSort (· ≤ ·)
        (X.filter (fun q : ℚ => decide ((q : WithTop ℚ) ≤ thresh))) ++
       List.insertionSort (· ≤ ·)
        (X.filter (fun q : ℚ => !decide ((q : WithTop ℚ) ≤ thresh)))) := by
    show List.Pairwise _ _
    refine List.pairwise_append.mpr
      ⟨List.sorted_insertionSort _ _, List.sorted_insertionSort _ _, ?_⟩
    intro x hx y hy
    have hxmem := (List.perm_insertionSort _ _).subset hx
    have hymem := (List.perm_insertionSort _ _).subset hy
    have hxpass : (x : WithTop ℚ) ≤ thresh := by
      simpa using (List.mem_filter.mp hxmem).2
    have hyfail : ¬ ((y : WithTop ℚ) ≤ thresh) := by
      simpa using (List.mem_filter.mp hymem).2
    have hlt : ((x : ℚ) : WithTop ℚ) < ((y : ℚ) : WithTop ℚ) :=
      lt_of_le_of_lt hxpass (not_le.mp hyfail)
    exact le_of_lt (WithTop.coe_lt_coe.mp hlt)
  exact List.eq_of_perm_of_sorted hperm (List.sorted_insertionSort _ X) hsorted

theorem map_eq_of_inj_on (f : Nat → ℚ) (S : List Nat)
    (hinj : ∀ u ∈ S, ∀ v ∈ S, f u = f v → u = v) :
    ∀ l₁ l₂ : List Nat, (∀ x ∈ l₁, x ∈ S) → (∀ x ∈ l₂, x ∈ S) →
      l₁.map f = l₂.map f → l₁ = l₂ := by
  intro l₁
  induction l₁ with
  | nil =>
      intro l₂ _ _ h
      exact (List.map_eq_nil_iff.mp h.symm).symm
  | cons x l ih =>
      intro l₂ h₁ h₂ h
      cases l₂ with
      | nil => simp at h
      | cons y l₂ =>
          simp only [List.map_cons, List.cons.injEq] at h
          have hxy : x = y :=
            hinj x (h₁ x (List.mem_cons_self x l)) y (h₂ y (List.mem_cons_self y l₂)) h.1
          have htail : l = l₂ :=
            ih l₂ (fun v hv => h₁ v (List.mem_cons_of_mem x hv))
              (fun v hv => h₂ v (List.mem_cons_of_mem y hv)) h.2
          rw [hxy, htail]

/-! ### Claim C2: guarantees of the Ranked selector -/

/-- C2: with any threshold (negative-numerator ratios denote +infinity,
modelled as the top element) and a score table defined on every
candidate, RankedSelector succeeds and returns at most `n` uids, sorted
non-decreasing by score, with every returned score at most the
threshold. -/
theorem C2_ranked_guarantees (thresh : WithTop ℚ) (uids : List Nat) (scores : ScoreMap)
    (n : Nat) (f : Nat → ℚ) (H : ∀ u ∈ uids, mapFind scores u = some (f u)) :
    ∃ res final, RankedSelector thresh uids scores n = (some res, final, scores) ∧
      res.length ≤ n ∧ List.Sorted (· ≤ ·) (res.map f) ∧
      ∀ u ∈ res, (f u : WithTop ℚ) ≤ thresh := by
  by_cases hbr : 2 ^ n < uids.length
  · obtain ⟨acc, fin0, hsel, hperm, hseq⟩ := selLoop_spec scores thresh f n uids H
    refine ⟨acc, acc ++ fin0, ?_, ?_, ?_, ?_⟩
    · rw [RankedSelector, if_pos hbr]
      simp [rankedSelBranch, hsel]
    · have hlen := congrArg List.length hseq
      rw [List.length_map, List.length_take] at hlen
      omega
    · rw [hseq]
      exact (List.sorted_insertionSort _ _).sublist (List.take_sublist _ _)
    · intro u hu
      have hmem : f u ∈ List.insertionSort (· ≤ ·)
          ((uids.filter (fun u => decide ((f u : WithTop ℚ) ≤ thresh))).map f) :=
        (List.take_sublist _ _).subset (hseq ▸ List.mem_map_of_mem f hu)
      have hmem2 := (List.perm_insertionSort _ _).subset hmem
      obtain ⟨v, hv, hfv⟩ := List.mem_map.mp hmem2
      have hvpass := (List.mem_filter.mp hv).2
      rw [← hfv]
      simpa using hvpass
  · obtain ⟨r, hr, hperm, hsorted⟩ := sortM_spec scores f uids H
    have Hr : ∀ v ∈ r, mapFind scores v = some (f v) := fun v hv => H v (hperm.subset hv)
    obtain ⟨back, htc, hbn, hblen, hbpass⟩ := takeCount_spec scores thresh f r n Hr
    refine ⟨r.take back, r, ?_, ?_, ?_, hbpass⟩
    · rw [RankedSelector, if_neg hbr]
      simp [rankedSortBranch, hr, htc]
    · rw [List.length_take]
      omega
    · rw [List.map_take]
      exact hsorted.sublist (List.take_sublist _ _)

/-- C2 witness: threshold +infinity, uids 3 and 7 with scores 1/2 and
1/4, n = 5. -/
theorem C2_ranked_guarantees_witness :
    (∀ u ∈ [3, 7], mapFind [(3, (1 : ℚ)/2), (7, (1 : ℚ)/4)] u =
      some (if u = 3 then (1 : ℚ)/2 else (1 : ℚ)/4)) ∧
    (∃ res final,
      RankedSelector ⊤ [3, 7] [(3, (1 : ℚ)/2), (7, (1 : ℚ)/4)] 5 = (some res, final,
        [(3, (1 : ℚ)/2), (7, (1 : ℚ)/4)]) ∧
      res.length ≤ 5 ∧
      List.Sorted (· ≤ ·) (res.map (fun u => if u = 3 then (1 : ℚ)/2 else (1 : ℚ)/4)) ∧
      ∀ u ∈ res, (((if u = 3 then (1 : ℚ)/2 else (1 : ℚ)/4) : ℚ) : WithTop ℚ) ≤ ⊤) :=
  ⟨by simp [mapFind], C2_ranked_guarantees ⊤ [3, 7] [(3, (1 : ℚ)/2), (7, (1 : ℚ)/4)] 5
    (fun u => if u = 3 then (1 : ℚ)/2 else (1 : ℚ)/4) (by simp [mapFind])⟩

/-! ### Claim C3: the two Ranked branches agree -/

/-- C3: for every candidate list, total score table, threshold and
count, the bounded selection-sort branch and the full-sort branch both
succeed and return results with the same score sequence (so equal
multisets of scores), and identical uid lists whenever the scores are
injective on the candidates. -/
theorem C3_branch_equivalence (thresh : WithTop ℚ) (uids : List Nat) (scores : ScoreMap)
    (n : Nat) (f : Nat → ℚ) (H : ∀ u ∈ uids, mapFind scores u = some (f u)) :
    ∃ res₁ fin₁ res₂ fin₂,
      rankedSelBranch thresh uids scores n = some (res₁, fin₁) ∧
      rankedSortBranch thresh uids scores n = some (res₂, fin₂) ∧
      res₁.map f = res₂.map f ∧
      ((∀ u ∈ uids, ∀ v ∈ uids, f u = f v → u = v) → res₁ = res₂) := by
  obtain ⟨acc, fin0, hsel, hperm1, hseq⟩ := selLoop_spec scores thresh f n uids H
  obtain ⟨r, hr, hperm2, hsorted⟩ := sortM_spec scores f uids H
  have Hr : ∀ v ∈ r, mapFind scores v = some (f v) := fun v hv => H v (hperm2.subset hv)
  have htc := takeCount_sorted_eq scores thresh f r n Hr hsorted
  have hcPr : r.countP (fun u => decide ((f u : WithTop ℚ) ≤ thresh)) =
      uids.countP (fun u => decide ((f u : WithTop ℚ) ≤ thresh)) := hperm2.countP_eq _
  rw [hcPr] at htc
  have hmapr : r.map f = List.insertionSort (· ≤ ·) (uids.map f) :=
    sortM_map_eq scores f uids r hr hperm2 hsorted
  have hfilter : (uids.map f).filter (fun q : ℚ => decide ((q : WithTop ℚ) ≤ thresh)) =
      (uids.filter (fun u => decide ((f u : WithTop ℚ) ≤ thresh))).map f := by
    rw [List.filter_map]
    rfl
  have hlenpass : ((uids.filter (fun u => decide ((f u : WithTop ℚ) ≤ thresh))).map f).length =
      uids.countP (fun u => decide ((f u : WithTop ℚ) ≤ thresh)) := by
    rw [List.length_map, ← List.countP_eq_length_filter]
  have hscores : acc.map f =
      (r.take (min n (uids.countP (fun u => decide ((f u : WithTop ℚ) ≤ thresh))))).map f := by
    rw [hseq, List.map_take, hmapr, insertionSort_split thresh (uids.map f), hfilter]
    have hlen2 : (List.insertionSort (· ≤ ·)
        ((uids.filter (fun u => decide ((f u : WithTop ℚ) ≤ thresh))).map f)).length =
        uids.countP (fun u => decide ((f u : WithTop ℚ) ≤ thresh)) := by
      rw [(List.perm_insertionSort _ _).length_eq, hlenpass]
    by_cases hn : n ≤ uids.countP (fun u => decide ((f u : WithTop ℚ) ≤ thresh))
    · rw [min_eq_left hn, List.take_append_of_le_length (by omega)]
    · push_neg at hn
      rw [min_eq_right (le_of_lt hn), List.take_append_of_le_length (by omega),
        List.take_of_length_le (by omega), List.take_of_length_le (by omega)]
  refine ⟨acc, acc ++ fin0,
    r.take (min n (uids.countP (fun u => decide ((f u : WithTop ℚ) ≤ thresh)))), r,
    ?_, ?_, hscores, ?_⟩
  · simp [rankedSelBranch, hsel]
  · simp [rankedSortBranch, hr, htc]
  · intro hinj
    apply map_eq_of_inj_on f uids hinj _ _ _ _ hscores
    · intro x hx
      exact hperm1.subset (List.mem_append.mpr (Or.inl hx))
    · intro x hx
      exact hperm2.subset ((List.take_sublist _ _).subset hx)

/-- C3 witness: uids 4 and 9 with scores 2/3 and 1/3, threshold
+infinity, n = 1. -/
theorem C3_branch_equivalence_witness :
    (∀ u ∈ [4, 9], mapFind [(4, (2 : ℚ)/3), (9, (1 : ℚ)/3)] u =
      some (if u = 4 then (2 : ℚ)/3 else (1 : ℚ)/3)) ∧
    (∃ res₁ fin₁ res₂ fin₂,
      rankedSelBranch ⊤ [4, 9] [(4, (2 : ℚ)/3), (9, (1 : ℚ)/3)] 1 = some (res₁, fin₁) ∧
      rankedSortBranch ⊤ [4, 9] [(4, (2 : ℚ)/3), (9, (1 : ℚ)/3)] 1 = some (res₂, fin₂) ∧
      res₁.map (fun u => if u = 4 then (2 : ℚ)/3 else (1 : ℚ)/3) =
        res₂.map (fun u => if u = 4 then (2 : ℚ)/3 else (1 : ℚ)/3) ∧
      ((∀ u ∈ [4, 9], ∀ v ∈ [4, 9],
          (if u = 4 then (2 : ℚ)/3 else (1 : ℚ)/3) =
            (if v = 4 then (2 : ℚ)/3 else (1 : ℚ)/3) → u = v) → res₁ = res₂)) :=
  ⟨by simp [mapFind], C3_branch_equivalence ⊤ [4, 9] [(4, (2 : ℚ)/3), (9, (1 : ℚ)/3)] 1
    (fun u => if u = 4 then (2 : ℚ)/3 else (1 : ℚ)/3) (by simp [mapFind])⟩

/-! ### Invariants of the Roulette partition loop -/

theorem partitionLoop_perm (thresh : WithTop ℚ) :
    ∀ (rem pass fail : List Nat) (m : ScoreMap) (ms : WithTop ℚ),
      List.Perm ((partitionLoop thresh rem pass fail m ms).1 ++
        (partitionLoop thresh rem pass fail m ms).2.1) ((pass ++ fail) ++ rem) := by
  intro rem
  induction rem with
  | nil => intro pass fail m ms; simp [partitionLoop]
  | cons u rem ih =>
      intro pass fail m ms
      have hstep : ∀ (pass2 fail2 : List Nat) (m2 : ScoreMap) (ms2 : WithTop ℚ),
          List.Perm (pass2 ++ fail2) (u :: (pass ++ fail)) →
          List.Perm ((partitionLoop thresh rem pass2 fail2 m2 ms2).1 ++
            (partitionLoop thresh rem pass2 fail2 m2 ms2).2.1)
            ((pass ++ fail) ++ (u :: rem)) := by
        intro pass2 fail2 m2 ms2 hp
        refine (ih pass2 fail2 m2 ms2).trans ?_
        refine (hp.append_right rem).trans ?_
        show List.Perm (u :: ((pass ++ fail) ++ rem)) ((pass ++ fail) ++ (u :: rem))
        exact List.perm_middle.symm
      simp only [partitionLoop]
      by_cases hc : ((mapIdx m u).1 : WithTop ℚ) ≤ thresh
      · rw [if_pos hc]
        apply hstep
        have h1 : List.Perm ((pass ++ [u]) ++ fail.rotate 1) ((pass ++ [u]) ++ fail) :=
          (List.rotate_perm fail 1).append_left _
        have h2 : (pass ++ [u]) ++ fail = pass ++ u :: fail := by simp
        refine h1.trans ?_
        rw [h2]
        exact List.perm_middle
      · rw [if_neg hc]
        apply hstep
        have h2 : pass ++ (fail ++ [u]) = (pass ++ fail) ++ [u] :=
          (List.append_assoc pass fail [u]).symm
        rw [h2]
        exact List.perm_append_singleton u (pass ++ fail)

theorem partitionLoop_eff (thresh : WithTop ℚ) :
    ∀ (rem pass fail : List Nat) (m : ScoreMap) (ms : WithTop ℚ) (v : Nat),
      effScore (partitionLoop thresh rem pass fail m ms).2.2.1 v = effScore m v := by
  intro rem
  induction rem with
  | nil => intro pass fail m ms v; rfl
  | cons u rem ih =>
      intro pass fail m ms v
      simp only [partitionLoop]
      by_cases hc : ((mapIdx m u).1 : WithTop ℚ) ≤ thresh
      · rw [if_pos hc, ih]
        exact mapIdx_effScore m u v
      · rw [if_neg hc, ih]
        exact mapIdx_effScore m u v

theorem partitionLoop_isSome (thresh : WithTop ℚ) :
    ∀ (rem pass fail : List Nat) (m : ScoreMap) (ms : WithTop ℚ) (v : Nat),
      (mapFind m v).isSome →
      (mapFind (partitionLoop thresh rem pass fail m ms).2.2.1 v).isSome := by
  intro rem
  induction rem with
  | nil => intro pass fail m ms v h; exact h
  | cons u rem ih =>
      intro pass fail m ms v h
      simp only [partitionLoop]
      by_cases hc : ((mapIdx m u).1 : WithTop ℚ) ≤ thresh
      · rw [if_pos hc]
        exact ih _ _ _ _ v (mapIdx_isSome m u v h)
      · rw [if_neg hc]
        exact ih _ _ _ _ v (mapIdx_isSome m u v h)

theorem partitionLoop_map_unchanged (thresh : WithTop ℚ) :
    ∀ (rem pass fail : List Nat) (m : ScoreMap) (ms : WithTop ℚ),
      (∀ u ∈ rem, (mapFind m u).isSome) →
      (partitionLoop thresh rem pass fail m ms).2.2.1 = m := by
  intro rem
  induction rem with
  | nil => intro pass fail m ms _; rfl
  | cons u rem ih =>
      intro pass fail m ms H
      have hu : (mapIdx m u).2 = m := mapIdx_of_isSome m u (H u (List.mem_cons_self u rem))
      have Hrem : ∀ v ∈ rem, (mapFind m v).isSome :=
        fun v hv => H v (List.mem_cons_of_mem u hv)
      simp only [partitionLoop]
      by_cases hc : ((mapIdx m u).1 : WithTop ℚ) ≤ thresh
      · rw [if_pos hc, hu]
        exact ih _ _ _ _ Hrem
      · rw [if_neg hc, hu]
        exact ih _ _ _ _ Hrem

theorem partitionLoop_entries (thresh : WithTop ℚ) :
    ∀ (rem pass fail : List Nat) (m : ScoreMap) (ms : WithTop ℚ),
      ∀ u ∈ rem, (mapFind (partitionLoop thresh rem pass fail m ms).2.2.1 u).isSome := by
  intro rem
  induction rem with
  | nil => intro pass fail m ms u hu; cases hu
  | cons u rem ih =>
      intro pass fail m ms v hv
      simp only [partitionLoop]
      rcases List.mem_cons.mp hv with rfl | hv2
      · by_cases hc : ((mapIdx m v).1 : WithTop ℚ) ≤ thresh
        · rw [if_pos hc]
          exact partitionLoop_isSome thresh rem _ _ _ _ v (mapIdx_isSome_self m v)
        · rw [if_neg hc]
          exact partitionLoop_isSome thresh rem _ _ _ _ v (mapIdx_isSome_self m v)
      · by_cases hc : ((mapIdx m u).1 : WithTop ℚ) ≤ thresh
        · rw [if_pos hc]
          exact ih _ _ _ _ v hv2
        · rw [if_neg hc]
          exact ih _ _ _ _ v hv2

theorem partitionLoop_minScore_le (thresh : WithTop ℚ) :
    ∀ (rem pass fail : List Nat) (m : ScoreMap) (ms : WithTop ℚ),
      (partitionLoop thresh rem pass fail m ms).2.2.2 ≤ ms ∧
      ∀ u ∈ rem, (partitionLoop thresh rem pass fail m ms).2.2.2 ≤
        ((effScore m u : ℚ) : WithTop ℚ) := by
  intro rem
  induction rem with
  | nil => intro pass fail m ms; exact ⟨le_refl _, by simp⟩
  | cons u rem ih =>
      intro pass fail m ms
      simp only [partitionLoop]
      by_cases hc : ((mapIdx m u).1 : WithTop ℚ) ≤ thresh
      · rw [if_pos hc]
        obtain ⟨ihle, ihall⟩ :=
          ih (pass ++ [u]) (fail.rotate 1) (mapIdx m u).2 (min ms ((mapIdx m u).1 : WithTop ℚ))
        refine ⟨le_trans ihle (min_le_left _ _), ?_⟩
        intro v hv
        rcases List.mem_cons.mp hv with rfl | hv2
        · refine le_trans ihle ?_
          rw [mapIdx_fst]
          exact min_le_right _ _
        · have h3 := ihall v hv2
          rwa [mapIdx_effScore] at h3
      · rw [if_neg hc]
        obtain ⟨ihle, ihall⟩ :=
          ih pass (fail ++ [u]) (mapIdx m u).2 (min ms ((mapIdx m u).1 : WithTop ℚ))
        refine ⟨le_trans ihle (min_le_left _ _), ?_⟩
        intro v hv
        rcases List.mem_cons.mp hv with rfl | hv2
        · refine le_trans ihle ?_
          rw [mapIdx_fst]
          exact min_le_right _ _
        · have h3 := ihall v hv2
          rwa [mapIdx_effScore] at h3

theorem partitionLoop_minScore_ge (thresh : WithTop ℚ) :
    ∀ (rem pass fail : List Nat) (m : ScoreMap) (ms q : WithTop ℚ),
      q ≤ ms → (∀ u ∈ rem, q ≤ ((effScore m u : ℚ) : WithTop ℚ)) →
      q ≤ (partitionLoop thresh rem pass fail m ms).2.2.2 := by
  intro rem
  induction rem with
  | nil => intro pass fail m ms q hq _; exact hq
  | cons u rem ih =>
      intro pass fail m ms q hq H
      have hq2 : q ≤ min ms (((mapIdx m u).1 : ℚ) : WithTop ℚ) := by
        refine le_min hq ?_
        rw [mapIdx_fst]
        exact H u (List.mem_cons_self u rem)
      have H2 : ∀ v ∈ rem, q ≤ ((effScore (mapIdx m u).2 v : ℚ) : WithTop ℚ) := by
        intro v hv
        rw [mapIdx_effScore]
        exact H v (List.mem_cons_of_mem u hv)
      simp only [partitionLoop]
      by_cases hc : ((mapIdx m u).1 : WithTop ℚ) ≤ thresh
      · rw [if_pos hc]
        exact ih _ _ _ _ _ hq2 H2
      · rw [if_neg hc]
        exact ih _ _ _ _ _ hq2 H2

theorem partitionLoop_pass_sub (thresh : WithTop ℚ) :
    ∀ (rem pass fail : List Nat) (m : ScoreMap) (ms : WithTop ℚ),
      ∀ u ∈ (partitionLoop thresh rem pass fail m ms).1,
        u ∈ pass ∨ (u ∈ rem ∧ ((effScore m u : ℚ) : WithTop ℚ) ≤ thresh) := by
  intro rem
  induction rem with
  | nil => intro pass fail m ms u hu; exact Or.inl hu
  | cons u rem ih =>
      intro pass fail m ms v hv
      simp only [partitionLoop] at hv
      by_cases hc : ((mapIdx m u).1 : WithTop ℚ) ≤ thresh
      · rw [if_pos hc] at hv
        rcases ih _ _ _ _ v hv with hvp | ⟨hvrem, hvpass⟩
        · rcases List.mem_append.mp hvp with h1 | h2
          · exact Or.inl h1
          · have : v = u := by simpa using h2
            subst this
            refine Or.inr ⟨List.mem_cons_self v rem, ?_⟩
            rwa [mapIdx_fst] at hc
        · rw [mapIdx_effScore] at hvpass
          exact Or.inr ⟨List.mem_cons_of_mem u hvrem, hvpass⟩
      · rw [if_neg hc] at hv
        rcases ih _ _ _ _ v hv with hvp | ⟨hvrem, hvpass⟩
        · exact Or.inl hvp
        · rw [mapIdx_effScore] at hvpass
          exact Or.inr ⟨List.mem_cons_of_mem u hvrem, hvpass⟩

theorem partitionLoop_pass_mem (thresh : WithTop ℚ) :
    ∀ (rem pass fail : List Nat) (m : ScoreMap) (ms : WithTop ℚ),
      (∀ u ∈ pass, u ∈ (partitionLoop thresh rem pass fail m ms).1) ∧
      (∀ u ∈ rem, ((effScore m u : ℚ) : WithTop ℚ) ≤ thresh →
        u ∈ (partitionLoop thresh rem pass fail m ms).1) := by
  intro rem
  induction rem with
  | nil => intro pass fail m ms; exact ⟨fun u hu => hu, fun u hu => absurd hu (by simp)⟩
  | cons u rem ih =>
      intro pass fail m ms
      simp only [partitionLoop]
      by_cases hc : ((mapIdx m u).1 : WithTop ℚ) ≤ thresh
      · rw [if_pos hc]
        obtain ⟨ih1, ih2⟩ := ih (pass ++ [u]) (fail.rotate 1) (mapIdx m u).2
          (min ms ((mapIdx m u).1 : WithTop ℚ))
        refine ⟨?_, ?_⟩
        · intro v hv
          exact ih1 v (List.mem_append.mpr (Or.inl hv))
        · intro v hv hvpass
          rcases List.mem_cons.mp hv with rfl | hv2
          · exact ih1 v (List.mem_append.mpr (Or.inr (List.mem_singleton.mpr rfl)))
          · refine ih2 v hv2 ?_
            rwa [mapIdx_effScore]
      · rw [if_neg hc]
        obtain ⟨ih1, ih2⟩ := ih pass (fail ++ [u]) (mapIdx m u).2
          (min ms ((mapIdx m u).1 : WithTop ℚ))
        refine ⟨ih1, ?_⟩
        intro v hv hvpass
        rcases List.mem_cons.mp hv with rfl | hv2
        · rw [← mapIdx_fst] at hvpass
          exact absurd hvpass hc
        · refine ih2 v hv2 ?_
          rwa [mapIdx_effScore]

theorem partitionLoop_pass_nil (thresh : WithTop ℚ) :
    ∀ (rem pass fail : List Nat) (m : ScoreMap) (ms : WithTop ℚ),
      (∀ u ∈ rem, ¬ ((effScore m u : ℚ) : WithTop ℚ) ≤ thresh) →
      (partitionLoop thresh rem pass fail m ms).1 = pass := by
  intro rem
  induction rem with
  | nil => intro pass fail m ms _; rfl
  | cons u rem ih =>
      intro pass fail m ms H
      have hu : ¬ ((mapIdx m u).1 : WithTop ℚ) ≤ thresh := by
        rw [mapIdx_fst]
        exact H u (List.mem_cons_self u rem)
      simp only [partitionLoop, if_neg hu]
      refine ih _ _ _ _ ?_
      intro v hv
      rw [mapIdx_effScore]
      exact H v (List.mem_cons_of_mem u hv)

/-! ### Invariants of the weight and draw loops -/

theorem weightLoop_weights (skew bq : ℚ) :
    ∀ (l : List Nat) (m : ScoreMap),
      (weightLoop skew bq l m).1 =
        l.map (fun u => 1 / (skew + effScore m u - bq)) := by
  intro l
  induction l with
  | nil => intro m; rfl
  | cons u l ih =>
      intro m
      simp only [weightLoop, List.map_cons, mapIdx_fst]
      rw [ih]
      congr 1
      apply List.map_congr_left
      intro v _
      rw [mapIdx_effScore]

theorem weightLoop_eff (skew bq : ℚ) :
    ∀ (l : List Nat) (m : ScoreMap) (v : Nat),
      effScore (weightLoop skew bq l m).2 v = effScore m v := by
  intro l
  induction l with
  | nil => intro m v; rfl
  | cons u l ih =>
      intro m v
      simp only [weightLoop]
      rw [ih, mapIdx_effScore]

theorem weightLoop_isSome (skew bq : ℚ) :
    ∀ (l : List Nat) (m : ScoreMap) (v : Nat),
      (mapFind m v).isSome → (mapFind (weightLoop skew bq l m).2 v).isSome := by
  intro l
  induction l with
  | nil => intro m v h; exact h
  | cons u l ih =>
      intro m v h
      simp only [weightLoop]
      exact ih _ v (mapIdx_isSome m u v h)

theorem weightLoop_unchanged (skew bq : ℚ) :
    ∀ (l : List Nat) (m : ScoreMap),
      (∀ u ∈ l, (mapFind m u).isSome) → (weightLoop skew bq l m).2 = m := by
  intro l
  induction l with
  | nil => intro m _; rfl
  | cons u l ih =>
      intro m H
      have hu : (mapIdx m u).2 = m := mapIdx_of_isSome m u (H u (List.mem_cons_self u l))
      simp only [weightLoop]
      rw [hu]
      exact ih _ (fun v hv => H v (List.mem_cons_of_mem u hv))

theorem cumFind_lt : ∀ (ws : List ℚ) (x : ℚ), 0 ≤ x → x < ws.sum →
    cumFind ws x < ws.length := by
  intro ws
  induction ws with
  | nil => intro x h0 hlt; rw [List.sum_nil] at hlt; exact absurd hlt (by linarith)
  | cons w ws ih =>
      intro x h0 hlt
      simp only [cumFind, List.length_cons]
      by_cases hx : x < w
      · rw [if_pos hx]
        omega
      · rw [if_neg hx]
        push_neg at hx
        rw [List.sum_cons] at hlt
        have := ih (x - w) (by linarith) (by linarith)
        omega

theorem sampleLoop_nil_ws (uidsAll : List Nat) (draws : Nat → ℚ) (j count : Nat) :
    sampleLoop uidsAll [] draws j (count + 1) = none := by
  simp [sampleLoop, imIndex]

theorem sampleLoop_success (uidsAll : List Nat) (ws : List ℚ) (draws : Nat → ℚ)
    (hlen : ws.length ≤ uidsAll.length) (hpos : 0 < ws.sum)
    (hdraws : ∀ j, 0 ≤ draws j ∧ draws j < 1) :
    ∀ (count j : Nat), ∃ res, sampleLoop uidsAll ws draws j count = some res ∧
      res.length = count ∧ ∀ u ∈ res, u ∈ uidsAll := by
  intro count
  induction count with
  | zero => intro j; exact ⟨[], rfl, rfl, by simp⟩
  | succ count ih =>
      intro j
      obtain ⟨res, hres, hlenres, hmem⟩ := ih (j + 1)
      have hx0 : 0 ≤ draws j * ws.sum := mul_nonneg (hdraws j).1 (le_of_lt hpos)
      have hxlt : draws j * ws.sum < ws.sum := mul_lt_of_lt_one_left hpos (hdraws j).2
      have hidx : imIndex ws (draws j * ws.sum) = some (cumFind ws (draws j * ws.sum)) := by
        rw [imIndex, if_pos ⟨hx0, hxlt⟩]
      have hcf : cumFind ws (draws j * ws.sum) < uidsAll.length :=
        lt_of_lt_of_le (cumFind_lt ws _ hx0 hxlt) hlen
      obtain ⟨val, hval⟩ : ∃ v, uidsAll[cumFind ws (draws j * ws.sum)]? = some v :=
        ⟨_, List.getElem?_eq_getElem hcf⟩
      refine ⟨val :: res, ?_, by simp [hlenres], ?_⟩
      · simp [sampleLoop, hidx, hval, hres]
      · intro v hv
        rcases List.mem_cons.mp hv with rfl | hv2
        · exact List.getElem?_mem hval
        · exact hmem v hv2

/-! ### Positivity of the Roulette weights -/

theorem roulette_weights_pos (thresh : WithTop ℚ) (skew : ℚ) (maxB : WithTop ℚ)
    (uids : List Nat) (scores : ScoreMap) (hskew : 0 < skew) :
    ∀ w ∈ (weightLoop skew
        (WithTop.untop' 0 (min (partitionLoop thresh uids [] [] scores ⊤).2.2.2 maxB))
        (partitionLoop thresh uids [] [] scores ⊤).1
        (partitionLoop thresh uids [] [] scores ⊤).2.2.1).1,
      0 < w ∧ w ≤ 1 / skew := by
  intro w hw
  rw [weightLoop_weights] at hw
  obtain ⟨u, hu, rfl⟩ := List.mem_map.mp hw
  have heff : effScore (partitionLoop thresh uids [] [] scores ⊤).2.2.1 u =
      effScore scores u := partitionLoop_eff thresh uids [] [] scores ⊤ u
  have humem : u ∈ uids := by
    rcases partitionLoop_pass_sub thresh uids [] [] scores ⊤ u hu with h | ⟨h, _⟩
    · cases h
    · exact h
  have hms : (partitionLoop thresh uids [] [] scores ⊤).2.2.2 ≤
      ((effScore scores u : ℚ) : WithTop ℚ) :=
    (partitionLoop_minScore_le thresh uids [] [] scores ⊤).2 u humem
  have hβ : min (partitionLoop thresh uids [] [] scores ⊤).2.2.2 maxB ≤
      ((effScore scores u : ℚ) : WithTop ℚ) := le_trans (min_le_left _ _) hms
  obtain ⟨bq, hbq, hle⟩ := WithTop.le_coe_iff.mp hβ
  rw [heff, hbq, WithTop.untop'_coe]
  have hdenom : skew ≤ skew + effScore scores u - bq := by linarith
  constructor
  · exact one_div_pos.mpr (lt_of_lt_of_le hskew hdenom)
  · exact one_div_le_one_div_of_le hskew hdenom

/-! ### Claim C6: Roulette baseline and weight invariants -/

/-- C6: with positive skew, a non-negative max-baseline and non-negative
candidate scores, the baseline `min(min_score, max_baseline)` lies in
`[0, max_baseline]`, every post-threshold prefix score is at least the
baseline (so the emp_assert checks on the baseline and the normalized
scores hold), and every weight `1 / (skew + score - baseline)` lies in
`(0, 1/skew]`. -/
theorem C6_roulette_invariants (thresh : WithTop ℚ) (skew : ℚ) (maxB : WithTop ℚ)
    (uids : List Nat) (scores : ScoreMap)
    (hskew : 0 < skew) (hmaxB : 0 ≤ maxB)
    (hscores : ∀ u ∈ uids, 0 ≤ effScore scores u) :
    0 ≤ min (partitionLoop thresh uids [] [] scores ⊤).2.2.2 maxB ∧
    min (partitionLoop thresh uids [] [] scores ⊤).2.2.2 maxB ≤ maxB ∧
    (∀ u ∈ (partitionLoop thresh uids [] [] scores ⊤).1,
      min (partitionLoop thresh uids [] [] scores ⊤).2.2.2 maxB ≤
        ((effScore scores u : ℚ) : WithTop ℚ)) ∧
    (∀ w ∈ (weightLoop skew
        (WithTop.untop' 0 (min (partitionLoop thresh uids [] [] scores ⊤).2.2.2 maxB))
        (partitionLoop thresh uids [] [] scores ⊤).1
        (partitionLoop thresh uids [] [] scores ⊤).2.2.1).1,
      0 < w ∧ w ≤ 1 / skew) := by
  have hms0 : (0 : WithTop ℚ) ≤ (partitionLoop thresh uids [] [] scores ⊤).2.2.2 := by
    apply partitionLoop_minScore_ge thresh uids [] [] scores ⊤ 0 le_top
    intro u hu
    rw [← WithTop.coe_zero]
    exact WithTop.coe_le_coe.mpr (hscores u hu)
  refine ⟨le_min hms0 hmaxB, min_le_right _ _, ?_, ?_⟩
  · intro u hu
    have humem : u ∈ uids := by
      rcases partitionLoop_pass_sub thresh uids [] [] scores ⊤ u hu with h | ⟨h, _⟩
      · cases h
      · exact h
    exact le_trans (min_le_left _ _)
      ((partitionLoop_minScore_le thresh uids [] [] scores ⊤).2 u humem)
  · exact roulette_weights_pos thresh skew maxB uids scores hskew

/-- C6 witness: uids 1 and 2 with scores 1 and 3, threshold +infinity,
skew 2, max-baseline 1. -/
theorem C6_roulette_invariants_witness :
    ((0 : ℚ) < 2 ∧ (0 : WithTop ℚ) ≤ ((1 : ℚ) : WithTop ℚ) ∧
      (∀ u ∈ [1, 2], 0 ≤ effScore [(1, (1 : ℚ)), (2, (3 : ℚ))] u)) ∧
    (0 ≤ min (partitionLoop ⊤ [1, 2] [] [] [(1, (1 : ℚ)), (2, (3 : ℚ))] ⊤).2.2.2
        ((1 : ℚ) : WithTop ℚ) ∧
      min (partitionLoop ⊤ [1, 2] [] [] [(1, (1 : ℚ)), (2, (3 : ℚ))] ⊤).2.2.2
        ((1 : ℚ) : WithTop ℚ) ≤ ((1 : ℚ) : WithTop ℚ) ∧
      (∀ u ∈ (partitionLoop ⊤ [1, 2] [] [] [(1, (1 : ℚ)), (2, (3 : ℚ))] ⊤).1,
        min (partitionLoop ⊤ [1, 2] [] [] [(1, (1 : ℚ)), (2, (3 : ℚ))] ⊤).2.2.2
          ((1 : ℚ) : WithTop ℚ) ≤
          ((effScore [(1, (1 : ℚ)), (2, (3 : ℚ))] u : ℚ) : WithTop ℚ)) ∧
      (∀ w ∈ (weightLoop 2
          (WithTop.untop' 0
            (min (partitionLoop ⊤ [1, 2] [] [] [(1, (1 : ℚ)), (2, (3 : ℚ))] ⊤).2.2.2
              ((1 : ℚ) : WithTop ℚ)))
          (partitionLoop ⊤ [1, 2] [] [] [(1, (1 : ℚ)), (2, (3 : ℚ))] ⊤).1
          (partitionLoop ⊤ [1, 2] [] [] [(1, (1 : ℚ)), (2, (3 : ℚ))] ⊤).2.2.1).1,
        0 < w ∧ w ≤ 1 / 2)) := by
  refine ⟨⟨by norm_num, ?_, ?_⟩, ?_⟩
  · rw [← WithTop.coe_zero]
    exact WithTop.coe_le_coe.mpr (by norm_num)
  · intro u hu
    simp only [effScore, mapFind]
    rcases List.mem_cons.mp hu with rfl | hu2
    · norm_num
    · rcases List.mem_cons.mp hu2 with rfl | h3
      · norm_num
      · cases h3
  · refine C6_roulette_invariants ⊤ 2 ((1 : ℚ) : WithTop ℚ) [1, 2]
      [(1, (1 : ℚ)), (2, (3 : ℚ))] (by norm_num) ?_ ?_
    · rw [← WithTop.coe_zero]
      exact WithTop.coe_le_coe.mpr (by norm_num)
    · intro u hu
      simp only [effScore, mapFind]
      rcases List.mem_cons.mp hu with rfl | hu2
      · norm_num
      · rcases List.mem_cons.mp hu2 with rfl | h3
        · norm_num
        · cases h3

/-! ### Claim C9: selectors reorder the candidates, the table is unchanged -/

theorem roulette_state (thresh : WithTop ℚ) (skew : ℚ) (maxB : WithTop ℚ)
    (uids : List Nat) (scores : ScoreMap) (n : Nat) (draws : Nat → ℚ) :
    (RouletteSelector thresh skew maxB uids scores n draws).2.1 =
      (partitionLoop thresh uids [] [] scores ⊤).1 ++
        (partitionLoop thresh uids [] [] scores ⊤).2.1 ∧
    (RouletteSelector thresh skew maxB uids scores n draws).2.2 =
      (weightLoop skew
        (WithTop.untop' 0 (min (partitionLoop thresh uids [] [] scores ⊤).2.2.2 maxB))
        (partitionLoop thresh uids [] [] scores ⊤).1
        (partitionLoop thresh uids [] [] scores ⊤).2.2.1).2 := by
  simp only [RouletteSelector]
  cases sampleLoop
      ((partitionLoop thresh uids [] [] scores ⊤).1 ++
        (partitionLoop thresh uids [] [] scores ⊤).2.1)
      (weightLoop skew
        (WithTop.untop' 0 (min (partitionLoop thresh uids [] [] scores ⊤).2.2.2 maxB))
        (partitionLoop thresh uids [] [] scores ⊤).1
        (partitionLoop thresh uids [] [] scores ⊤).2.2.1).1 draws 0 n with
  | none => exact ⟨rfl, rfl⟩
  | some res => exact ⟨rfl, rfl⟩

/-- C9: every selector of the family — Ranked with any threshold,
Roulette with any configuration and draw stream, and Dynamic over
frame-preserving children — mutates the candidate list only by
reordering (the final list is a permutation of the input) and leaves the
score table unchanged, provided every candidate has a score entry. -/
theorem C9_frame_property :
    (∀ thresh : WithTop ℚ, FramePreserving (fun uids scores n =>
      RankedSelector thresh uids scores n)) ∧
    (∀ (thresh : WithTop ℚ) (skew : ℚ) (maxB : WithTop ℚ) (draws : Nat → ℚ),
      FramePreserving (fun uids scores n =>
        RouletteSelector thresh skew maxB uids scores n draws)) ∧
    (∀ (sels : List SelectorFn) (mode : Nat),
      (∀ s ∈ sels, FramePreserving s) → FramePreserving (DynamicSelector sels mode)) := by
  refine ⟨?_, ?_, ?_⟩
  · intro thresh uids scores n H
    have H2 : ∀ u ∈ uids, mapFind scores u = some (effScore scores u) :=
      fun u hu => mapFind_of_isSome_eff scores u (H u hu)
    by_cases hbr : 2 ^ n < uids.length
    · obtain ⟨acc, fin0, hsel, hperm, _⟩ :=
        selLoop_spec scores thresh (fun u => effScore scores u) n uids H2
      have hbranch : rankedSelBranch thresh uids scores n = some (acc, acc ++ fin0) := by
        simp [rankedSelBranch, hsel]
      constructor
      · simp only [RankedSelector, if_pos hbr, hbranch]
        exact hperm
      · simp only [RankedSelector, if_pos hbr, hbranch]
    · obtain ⟨r, hr, hperm, hsorted⟩ := sortM_spec scores (fun u => effScore scores u) uids H2
      have Hr : ∀ v ∈ r, mapFind scores v = some (effScore scores v) :=
        fun v hv => H2 v (hperm.subset hv)
      obtain ⟨back, htc, _, _, _⟩ :=
        takeCount_spec scores thresh (fun u => effScore scores u) r n Hr
      have hbranch : rankedSortBranch thresh uids scores n = some (r.take back, r) := by
        simp [rankedSortBranch, hr, htc]
      constructor
      · simp only [RankedSelector, if_neg hbr, hbranch]
        exact hperm
      · simp only [RankedSelector, if_neg hbr, hbranch]
  · intro thresh skew maxB draws uids scores n H
    obtain ⟨hst1, hst2⟩ := roulette_state thresh skew maxB uids scores n draws
    have hm1 : (partitionLoop thresh uids [] [] scores ⊤).2.2.1 = scores :=
      partitionLoop_map_unchanged thresh uids [] [] scores ⊤ H
    have hpassmem : ∀ u ∈ (partitionLoop thresh uids [] [] scores ⊤).1,
        (mapFind (partitionLoop thresh uids [] [] scores ⊤).2.2.1 u).isSome := by
      intro u hu
      rw [hm1]
      rcases partitionLoop_pass_sub thresh uids [] [] scores ⊤ u hu with h | ⟨h, _⟩
      · cases h
      · exact H u h
    constructor
    · show List.Perm (RouletteSelector thresh skew maxB uids scores n draws).2.1 uids
      rw [hst1]
      simpa using partitionLoop_perm thresh uids [] [] scores ⊤
    · show (RouletteSelector thresh skew maxB uids scores n draws).2.2 = scores
      rw [hst2, weightLoop_unchanged _ _ _ _ hpassmem, hm1]
  · intro sels mode hsels uids scores n H
    cases hm : sels[mode]? with
    | none =>
        constructor
        · simp only [DynamicSelector, hm]
          exact List.Perm.refl _
        · simp only [DynamicSelector, hm]
    | some s =>
        have hs := hsels s (List.getElem?_mem hm)
        obtain ⟨h1, h2⟩ := hs uids scores n H
        constructor
        · simp only [DynamicSelector, hm]
          exact h1
        · simp only [DynamicSelector, hm]
          exact h2

/-- C9 witness: Ranked with threshold +infinity on uids 2 and 5 with
scores 1 and 0, n = 1. -/
theorem C9_frame_property_witness :
    (∀ u ∈ [2, 5], (mapFind [(2, (1 : ℚ)), (5, (0 : ℚ))] u).isSome) ∧
    (List.Perm ((RankedSelector ⊤ [2, 5] [(2, (1 : ℚ)), (5, (0 : ℚ))] 1).2.1) [2, 5] ∧
      (RankedSelector ⊤ [2, 5] [(2, (1 : ℚ)), (5, (0 : ℚ))] 1).2.2 =
        [(2, (1 : ℚ)), (5, (0 : ℚ))]) :=
  ⟨by decide, C9_frame_property.1 ⊤ [2, 5] [(2, (1 : ℚ)), (5, (0 : ℚ))] 1 (by decide)⟩

/-! ### Claim C1: failure semantics of queries -/

theorem roulette_fst (thresh : WithTop ℚ) (skew : ℚ) (maxB : WithTop ℚ)
    (uids : List Nat) (scores : ScoreMap) (n : Nat) (draws : Nat → ℚ) :
    (RouletteSelector thresh skew maxB uids scores n draws).1 =
      sampleLoop
        ((partitionLoop thresh uids [] [] scores ⊤).1 ++
          (partitionLoop thresh uids [] [] scores ⊤).2.1)
        (weightLoop skew
          (WithTop.untop' 0 (min (partitionLoop thresh uids [] [] scores ⊤).2.2.2 maxB))
          (partitionLoop thresh uids [] [] scores ⊤).1
          (partitionLoop thresh uids [] [] scores ⊤).2.2.1).1
        draws 0 n := by
  simp only [RouletteSelector]
  cases sampleLoop
      ((partitionLoop thresh uids [] [] scores ⊤).1 ++
        (partitionLoop thresh uids [] [] scores ⊤).2.1)
      (weightLoop skew
        (WithTop.untop' 0 (min (partitionLoop thresh uids [] [] scores ⊤).2.2.2 maxB))
        (partitionLoop thresh uids [] [] scores ⊤).1
        (partitionLoop thresh uids [] [] scores ⊤).2.2.1).1 draws 0 n with
  | none => rfl
  | some res => rfl

/-- C1 counterexample: on an empty bin, a Roulette query with n = 1 does
not return an empty list — the draw indexes an empty weighted-index map
(and would read an empty candidate vector), so the query fails. -/
theorem C1_roulette_empty_counterexample :
    (RouletteSelector ⊤ 1 1 [] [] 1 (fun _ => 0)).1 = none := by
  rw [roulette_fst]
  have h1 : partitionLoop (⊤ : WithTop ℚ) [] [] [] [] ⊤ = ([], [], [], ⊤) := rfl
  rw [h1]
  simp only [weightLoop]
  exact sampleLoop_nil_ws _ _ 0 0

/-- C1 amended: a Ranked query on an empty bin returns an empty list for
every threshold and count; a Roulette query whose post-threshold prefix
is empty returns an empty list when n = 0, but for n ≥ 1 every draw is
outside the weighted-index map's contract and the query fails. -/
theorem C1_amended_failure_semantics :
    (∀ (thresh : WithTop ℚ) (scores : ScoreMap) (n : Nat),
      RankedSelector thresh [] scores n = (some [], [], scores)) ∧
    (∀ (thresh : WithTop ℚ) (skew : ℚ) (maxB : WithTop ℚ) (uids : List Nat)
      (scores : ScoreMap) (draws : Nat → ℚ),
      (∀ u ∈ uids, ¬ (((effScore scores u : ℚ) : WithTop ℚ) ≤ thresh)) →
      (RouletteSelector thresh skew maxB uids scores 0 draws).1 = some [] ∧
      (∀ n, 1 ≤ n →
        (RouletteSelector thresh skew maxB uids scores n draws).1 = none)) := by
  constructor
  · intro thresh scores n
    have h1 : ¬ (2 ^ n < (List.length ([] : List Nat))) := by simp
    simp [RankedSelector, h1, rankedSortBranch, sortM, takeCount]
  · intro thresh skew maxB uids scores draws H
    have hpass : (partitionLoop thresh uids [] [] scores ⊤).1 = [] :=
      partitionLoop_pass_nil thresh uids [] [] scores ⊤ H
    constructor
    · rw [roulette_fst, hpass]
      rfl
    · intro n hn
      rw [roulette_fst, hpass]
      cases n with
      | zero => omega
      | succ k =>
          simp only [weightLoop]
          exact sampleLoop_nil_ws _ draws 0 k

/-- C1 amended witness: uid 4 with score 1 against threshold 0 (an
empty post-threshold prefix). -/
theorem C1_amended_failure_semantics_witness :
    (∀ u ∈ [4], ¬ (((effScore [(4, (1 : ℚ))] u : ℚ) : WithTop ℚ) ≤ ((0 : ℚ) : WithTop ℚ))) ∧
    ((RouletteSelector ((0 : ℚ) : WithTop ℚ) 1 1 [4] [(4, (1 : ℚ))] 0 (fun _ => 0)).1 =
      some [] ∧
    (∀ n, 1 ≤ n →
      (RouletteSelector ((0 : ℚ) : WithTop ℚ) 1 1 [4] [(4, (1 : ℚ))] n (fun _ => 0)).1 =
        none)) := by
  have hH : ∀ u ∈ [4],
      ¬ (((effScore [(4, (1 : ℚ))] u : ℚ) : WithTop ℚ) ≤ ((0 : ℚ) : WithTop ℚ)) := by
    intro u hu
    have : u = 4 := by simpa using hu
    subst this
    simp only [effScore, mapFind, if_pos rfl, Option.getD_some, WithTop.coe_le_coe]
    norm_num
  exact ⟨hH, C1_amended_failure_semantics.2 ((0 : ℚ) : WithTop ℚ) 1 1 [4]
    [(4, (1 : ℚ))] (fun _ => 0) hH⟩

/-! ### Claim C10: behaviour on a missing score entry -/

theorem findMinSplit_fails (m : ScoreMap) (thresh : WithTop ℚ) :
    ∀ l : List Nat, (∃ u ∈ l, mapFind m u = none) →
      findMinSplit m thresh l = none := by
  intro l
  induction l with
  | nil => intro h; obtain ⟨u, hu, _⟩ := h; cases hu
  | cons v l ih =>
      intro h
      obtain ⟨u, hu, hnone⟩ := h
      rcases List.mem_cons.mp hu with rfl | hul
      · simp [findMinSplit, mapAt, hnone]
      · cases hsv : mapFind m v with
        | none => simp [findMinSplit, mapAt, hsv]
        | some sv => simp [findMinSplit, mapAt, hsv, ih ⟨u, hul, hnone⟩]

theorem sortM_cons (m : ScoreMap) (a : Nat) (l : List Nat) :
    sortM m (a :: l) = (sortM m l).bind (fun r => insertM m a r) := rfl

theorem sortM_fails (m : ScoreMap) :
    ∀ l : List Nat, 2 ≤ l.length → (∃ u ∈ l, mapFind m u = none) →
      sortM m l = none := by
  intro l
  induction l with
  | nil => intro hlen _; simp at hlen
  | cons a t ih =>
      intro hlen hex
      cases t with
      | nil => simp at hlen
      | cons b t2 =>
          by_cases hmt : ∃ u ∈ b :: t2, mapFind m u = none
          · cases t2 with
            | nil =>
                obtain ⟨u, hu, hnone⟩ := hmt
                have : u = b := by simpa using hu
                subst this
                cases hsa : mapFind m a with
                | none => simp [sortM, insertM, mapAt, hsa]
                | some sa => simp [sortM, insertM, mapAt, hsa, hnone]
            | cons c t3 =>
                have h2 : sortM m (b :: c :: t3) = none := ih (by simp) hmt
                rw [sortM_cons, h2]
                rfl
          · push_neg at hmt
            obtain ⟨u, hu, hnone⟩ := hex
            have hua : u = a := by
              rcases List.mem_cons.mp hu with rfl | hut
              · rfl
              · exact absurd hnone (hmt u hut)
            subst hua
            have Ht : ∀ v ∈ b :: t2, mapFind m v = some (effScore m v) := by
              intro v hv
              exact mapFind_of_isSome_eff m v (Option.ne_none_iff_isSome.mp (hmt v hv))
            obtain ⟨r, hr, hperm, _⟩ := sortM_spec m (fun v => effScore m v) (b :: t2) Ht
            have hrne : r ≠ [] := by
              intro hre
              have hl := hperm.length_eq
              rw [hre] at hl
              simp at hl
            cases r with
            | nil => exact absurd rfl hrne
            | cons v r2 =>
                rw [sortM_cons, hr]
                simp [insertM, mapAt, hnone]

/-- C10 counterexample: with n = 0 the Ranked selector never consults
the score table, so a missing uid raises no error — the claim that it
raises an out-of-range error on the first missing uid fails for n = 0
(here: two candidates, an empty table, result is the empty list). -/
theorem C10_ranked_counterexample :
    (RankedSelector ⊤ [1, 2] [] 0).1 = some [] := by decide

/-- C10 amended: whenever at least one result is requested (n ≥ 1),
the Ranked selector throws std::out_of_range on a missing uid; the
Roulette selector (positive skew, any non-negative threshold, valid
draws) never fails: it inserts a default score-0 entry for the missing
uid, the uid enters the post-threshold prefix (score 0 passes every
threshold of the encoding) and is eligible for sampling, and the query
returns n results. -/
theorem C10_missing_uid_behaviour :
    (∀ (thresh : WithTop ℚ) (uids : List Nat) (scores : ScoreMap) (n : Nat),
      1 ≤ n → (∃ u ∈ uids, mapFind scores u = none) →
      (RankedSelector thresh uids scores n).1 = none) ∧
    (∀ (thresh : WithTop ℚ) (skew : ℚ) (maxB : WithTop ℚ) (uids : List Nat)
      (scores : ScoreMap) (n : Nat) (draws : Nat → ℚ) (u : Nat),
      0 < skew → (0 : WithTop ℚ) ≤ thresh → (∀ j, 0 ≤ draws j ∧ draws j < 1) →
      u ∈ uids → mapFind scores u = none →
      (∃ res, (RouletteSelector thresh skew maxB uids scores n draws).1 = some res ∧
        res.length = n) ∧
      mapFind (RouletteSelector thresh skew maxB uids scores n draws).2.2 u = some 0 ∧
      u ∈ (partitionLoop thresh uids [] [] scores ⊤).1) := by
  constructor
  · intro thresh uids scores n hn hex
    by_cases hbr : 2 ^ n < uids.length
    · cases n with
      | zero => omega
      | succ k =>
          have hfl : selLoop scores thresh (k + 1) uids = none := by
            simp [selLoop, findMinSplit_fails scores thresh uids hex]
          have hbranch : rankedSelBranch thresh uids scores (k + 1) = none := by
            simp [rankedSelBranch, hfl]
          simp only [RankedSelector, if_pos hbr, hbranch]
    · obtain ⟨u, hu, hnone⟩ := hex
      by_cases h2 : 2 ≤ uids.length
      · have hsm := sortM_fails scores uids h2 ⟨u, hu, hnone⟩
        have hbranch : rankedSortBranch thresh uids scores n = none := by
          simp [rankedSortBranch, hsm]
        simp only [RankedSelector, if_neg hbr, hbranch]
      · have hlen1 : 1 ≤ uids.length := List.length_pos.mpr (List.ne_nil_of_mem hu)
        have hlen : uids.length = 1 := by omega
        obtain ⟨x, hx⟩ := List.length_eq_one.mp hlen
        subst hx
        have hux : u = x := by simpa using hu
        subst hux
        cases n with
        | zero => omega
        | succ k =>
            have htc : takeCount scores thresh [u] (k + 1) = none := by
              simp [takeCount, mapAt, hnone]
            have hbranch : rankedSortBranch thresh [u] scores (k + 1) = none := by
              simp [rankedSortBranch, sortM, insertM, htc]
            simp only [RankedSelector, if_neg hbr, hbranch]
  · intro thresh skew maxB uids scores n draws u hskew hthresh hdraws hu hnone
    have heffu : effScore scores u = 0 := by
      unfold effScore
      rw [hnone]
      rfl
    have hupass : u ∈ (partitionLoop thresh uids [] [] scores ⊤).1 := by
      refine (partitionLoop_pass_mem thresh uids [] [] scores ⊤).2 u hu ?_
      rw [heffu, WithTop.coe_zero]
      exact hthresh
    have hwl := weightLoop_weights skew
      (WithTop.untop' 0 (min (partitionLoop thresh uids [] [] scores ⊤).2.2.2 maxB))
      (partitionLoop thresh uids [] [] scores ⊤).1
      (partitionLoop thresh uids [] [] scores ⊤).2.2.1
    have hwsne : (weightLoop skew
        (WithTop.untop' 0 (min (partitionLoop thresh uids [] [] scores ⊤).2.2.2 maxB))
        (partitionLoop thresh uids [] [] scores ⊤).1
        (partitionLoop thresh uids [] [] scores ⊤).2.2.1).1 ≠ [] := by
      rw [hwl]
      intro hemp
      rw [List.map_eq_nil_iff] at hemp
      rw [hemp] at hupass
      cases hupass
    have hsum : 0 < (weightLoop skew
        (WithTop.untop' 0 (min (partitionLoop thresh uids [] [] scores ⊤).2.2.2 maxB))
        (partitionLoop thresh uids [] [] scores ⊤).1
        (partitionLoop thresh uids [] [] scores ⊤).2.2.1).1.sum :=
      List.sum_pos _
        (fun x hx => (roulette_weights_pos thresh skew maxB uids scores hskew x hx).1) hwsne
    have hlenws : (weightLoop skew
        (WithTop.untop' 0 (min (partitionLoop thresh uids [] [] scores ⊤).2.2.2 maxB))
        (partitionLoop thresh uids [] [] scores ⊤).1
        (partitionLoop thresh uids [] [] scores ⊤).2.2.1).1.length ≤
        ((partitionLoop thresh uids [] [] scores ⊤).1 ++
          (partitionLoop thresh uids [] [] scores ⊤).2.1).length := by
      rw [hwl, List.length_map, List.length_append]
      omega
    obtain ⟨res, hres, hreslen, _⟩ := sampleLoop_success _ _ draws hlenws hsum hdraws n 0
    refine ⟨⟨res, ?_, hreslen⟩, ?_, hupass⟩
    · rw [roulette_fst]
      exact hres
    · have h1 : (mapFind (partitionLoop thresh uids [] [] scores ⊤).2.2.1 u).isSome :=
        partitionLoop_entries thresh uids [] [] scores ⊤ u hu
      have h2 : (mapFind (weightLoop skew
          (WithTop.untop' 0 (min (partitionLoop thresh uids [] [] scores ⊤).2.2.2 maxB))
          (partitionLoop thresh uids [] [] scores ⊤).1
          (partitionLoop thresh uids [] [] scores ⊤).2.2.1).2 u).isSome :=
        weightLoop_isSome _ _ _ _ u h1
      have h3 : effScore (weightLoop skew
          (WithTop.untop' 0 (min (partitionLoop thresh uids [] [] scores ⊤).2.2.2 maxB))
          (partitionLoop thresh uids [] [] scores ⊤).1
          (partitionLoop thresh uids [] [] scores ⊤).2.2.1).2 u = 0 := by
        rw [weightLoop_eff, partitionLoop_eff, heffu]
      have h4 := mapFind_of_isSome_eff _ u h2
      rw [h3] at h4
      rw [(roulette_state thresh skew maxB uids scores n draws).2]
      exact h4

/-- C10 amended witness: uid 9 with no score entry, threshold 1,
skew 1, n = 2, and the all-zero draw stream. -/
theorem C10_missing_uid_behaviour_witness :
    ((0 : ℚ) < 1 ∧ (0 : WithTop ℚ) ≤ ((1 : ℚ) : WithTop ℚ) ∧
      (∀ j : Nat, 0 ≤ (fun _ : Nat => (0 : ℚ)) j ∧ (fun _ : Nat => (0 : ℚ)) j < 1) ∧
      9 ∈ [9] ∧ mapFind [] 9 = none) ∧
    ((∃ res, (RouletteSelector ((1 : ℚ) : WithTop ℚ) 1 1 [9] [] 2 (fun _ => 0)).1 =
        some res ∧ res.length = 2) ∧
      mapFind (RouletteSelector ((1 : ℚ) : WithTop ℚ) 1 1 [9] [] 2 (fun _ => 0)).2.2 9 =
        some 0 ∧
      9 ∈ (partitionLoop ((1 : ℚ) : WithTop ℚ) [9] [] [] [] ⊤).1) := by
  have hd : ∀ j : Nat, 0 ≤ (fun _ : Nat => (0 : ℚ)) j ∧ (fun _ : Nat => (0 : ℚ)) j < 1 :=
    fun _ => ⟨le_refl 0, by norm_num⟩
  have ht : (0 : WithTop ℚ) ≤ ((1 : ℚ) : WithTop ℚ) := by
    rw [← WithTop.coe_zero]
    exact WithTop.coe_le_coe.mpr (by norm_num)
  refine ⟨⟨by norm_num, ht, hd, by simp, rfl⟩, ?_⟩
  exact C10_missing_uid_behaviour.2 ((1 : ℚ) : WithTop ℚ) 1 1 [9] [] 2 (fun _ => 0) 9
    (by norm_num) ht hd (by simp) rfl
